import Mathlib

/-!
Verification of the ant web-crawler core (github.com/yields/ant).

The Go sources are shallowly embedded: Go strings are lists of characters
(one `Char` per byte; the embedded URL parser only admits ASCII input, so
the byte/rune distinction is immaterial on its domain), pure functions
become Lean functions, and stateful operations become explicit
state-passing functions.  Machine integers that cannot overflow on the
modelled domain (durations, attempt counters, status codes) are `Nat`.
-/

namespace Ant

/-- Go string, embedded as a list of characters (one per byte). -/
abbrev GoStr := List Char

/-- ASCII lowercase conversion of one character, as `strings.ToLower`
acts on ASCII input. -/
def toLowerChar (c : Char) : Char :=
  if 65 ≤ c.toNat ∧ c.toNat ≤ 90 then Char.ofNat (c.toNat + 32) else c

/-- Embeds `strings.ToLower` (restricted to ASCII, which is all the
normalizer ever lowercases on the embedded domain). -/
def toLower (s : GoStr) : GoStr := s.map toLowerChar

/-- ASCII letter test. -/
def isAlpha (c : Char) : Bool :=
  (97 ≤ c.toNat ∧ c.toNat ≤ 122) ∨ (65 ≤ c.toNat ∧ c.toNat ≤ 90)

/-- ASCII digit test. -/
def isDigit (c : Char) : Bool := 48 ≤ c.toNat ∧ c.toNat ≤ 57

/-- ASCII alphanumeric test. -/
def isAlnum (c : Char) : Bool := isAlpha c || isDigit c

/-- Embeds Go `strings.Split(s, string(c))` for a one-character
separator. -/
def splitCh (c : Char) : GoStr → List GoStr
  | [] => [[]]
  | x :: xs =>
    if x = c then [] :: splitCh c xs
    else
      match splitCh c xs with
      | [] => [[x]]
      | y :: ys => (x :: y) :: ys

/-- Embeds Go `strings.Join(parts, string(c))`. -/
def intercalateCh (c : Char) : List GoStr → GoStr
  | [] => []
  | p :: ps => p ++ ps.flatMap (fun q => c :: q)

/-- Go byte-lexicographic string comparison (`a <= b`), as used by
`sort.Strings`. -/
def goStrLe : GoStr → GoStr → Bool
  | [], _ => true
  | _ :: _, [] => false
  | x :: xs, y :: ys => if x = y then goStrLe xs ys else decide (x < y)

/-- The ordering relation induced by `goStrLe`. -/
def GoLe (a b : GoStr) : Prop := goStrLe a b = true

instance : DecidableRel GoLe := fun a b => by
  unfold GoLe; infer_instance

/-- Hexadecimal digit value, as Go `unhex` (accepting both cases). -/
def hexVal (c : Char) : Option Nat :=
  if 48 ≤ c.toNat ∧ c.toNat ≤ 57 then some (c.toNat - 48)
  else if 97 ≤ c.toNat ∧ c.toNat ≤ 102 then some (c.toNat - 87)
  else if 65 ≤ c.toNat ∧ c.toNat ≤ 70 then some (c.toNat - 55)
  else none

/-- Uppercase hexadecimal digit, as Go's `upperhex` table. -/
def hexUpper (n : Nat) : Char :=
  if n < 10 then Char.ofNat (48 + n) else Char.ofNat (55 + n)

/-- Go `shouldEscape(c, encodePath)`: keep alphanumerics, the unreserved
marks, and the RFC 3986 reserved characters other than the question
mark. -/
def shouldEscapePath (c : Char) : Bool :=
  if isAlnum c then false
  else if c = '-' ∨ c = '_' ∨ c = '.' ∨ c = '~' then false
  else if c = '$' ∨ c = '&' ∨ c = '+' ∨ c = ',' ∨ c = '/' ∨ c = ':' ∨
          c = ';' ∨ c = '=' ∨ c = '?' ∨ c = '@' then decide (c = '?')
  else true

/-- Go `shouldEscape(c, encodeUserPassword)`. -/
def shouldEscapeUser (c : Char) : Bool :=
  if isAlnum c then false
  else if c = '-' ∨ c = '_' ∨ c = '.' ∨ c = '~' then false
  else if c = '$' ∨ c = '&' ∨ c = '+' ∨ c = ',' ∨ c = '/' ∨ c = ':' ∨
          c = ';' ∨ c = '=' ∨ c = '?' ∨ c = '@' then
    decide (c = '@' ∨ c = '/' ∨ c = '?' ∨ c = ':')
  else true

/-- Go `shouldEscape(c, encodeHost)`: hosts additionally admit the
sub-delimiters and a few extra characters unescaped. -/
def shouldEscapeHost (c : Char) : Bool :=
  if isAlnum c then false
  else if c = '-' ∨ c = '_' ∨ c = '.' ∨ c = '~' then false
  else if c = '!' ∨ c = '$' ∨ c = '&' ∨ c = '\'' ∨ c = '(' ∨ c = ')' ∨
          c = '*' ∨ c = '+' ∨ c = ',' ∨ c = ';' ∨ c = '=' ∨ c = ':' ∨
          c = '[' ∨ c = ']' ∨ c = '<' ∨ c = '>' ∨ c = '"' then false
  else true

/-- Go `shouldEscape(c, encodeFragment)`. -/
def shouldEscapeFragment (c : Char) : Bool :=
  if isAlnum c then false
  else if c = '-' ∨ c = '_' ∨ c = '.' ∨ c = '~' then false
  else if c = '$' ∨ c = '&' ∨ c = '+' ∨ c = ',' ∨ c = '/' ∨ c = ':' ∨
          c = ';' ∨ c = '=' ∨ c = '?' ∨ c = '@' then false
  else if c = '!' ∨ c = '(' ∨ c = ')' ∨ c = '*' then false
  else true

/-- Escape one character against an escaping predicate, with Go's
uppercase hex triplets. -/
def escapeChar (pred : Char → Bool) (c : Char) : GoStr :=
  if pred c then ['%', hexUpper (c.toNat / 16), hexUpper (c.toNat % 16)]
  else [c]

/-- Go `escape(s, encodePath)`. -/
def escapePath (s : GoStr) : GoStr := s.flatMap (escapeChar shouldEscapePath)

/-- Go `escape(s, encodeUserPassword)`, used by `Userinfo.String`. -/
def escapeUser (s : GoStr) : GoStr := s.flatMap (escapeChar shouldEscapeUser)

/-- Go `escape(s, encodeHost)`. -/
def escapeHost (s : GoStr) : GoStr := s.flatMap (escapeChar shouldEscapeHost)

/-- Go `escape(s, encodeFragment)`. -/
def escapeFragment (s : GoStr) : GoStr := s.flatMap (escapeChar shouldEscapeFragment)

/-- Go `unescape(s, encodePath)` (the percent-decoding itself carries no
mode-specific checks outside host mode): each `%` must be followed by two
hex digits; all other characters pass through. -/
def unescapePath : GoStr → Option GoStr
  | [] => some []
  | c :: rest =>
    if c = '%' then
      match rest with
      | h1 :: h2 :: rest2 =>
        match hexVal h1, hexVal h2 with
        | some a, some b => (unescapePath rest2).map (Char.ofNat (16 * a + b) :: ·)
        | _, _ => none
      | _ => none
    else (unescapePath rest).map (c :: ·)

/-- Go `validEncoded(s, encodePath)`: the characters that may appear
verbatim in an escaped path. -/
def validEncodedPathChar (c : Char) : Bool :=
  if c = '!' ∨ c = '$' ∨ c = '&' ∨ c = '\'' ∨ c = '(' ∨ c = ')' ∨
     c = '*' ∨ c = '+' ∨ c = ',' ∨ c = ';' ∨ c = '=' ∨ c = ':' ∨
     c = '@' ∨ c = '[' ∨ c = ']' ∨ c = '%' then true
  else !shouldEscapePath c

/-- Go `validEncoded(s, encodePath)`. -/
def validEncodedPath (s : GoStr) : Bool := s.all validEncodedPathChar

/-! ### Go path.Clean and path.Join -/

/-- One step of path cleaning: drop empty and dot segments; on a
dot-dot, pop the previous segment when possible (keeping accumulated
leading dot-dots of a relative path).  The accumulator is kept in
reverse order. -/
def cleanStep (rooted : Bool) (acc : List GoStr) (seg : GoStr) : List GoStr :=
  if seg = [] ∨ seg = ['.'] then acc
  else if seg = ['.', '.'] then
    if rooted then acc.tail
    else
      match acc with
      | [] => [['.', '.']]
      | s :: rest => if s = ['.', '.'] then seg :: acc else rest
  else seg :: acc

/-- Go `path.Clean`. -/
def pathClean (p : GoStr) : GoStr :=
  if p = [] then ['.']
  else
    let rooted := p.head? = some '/'
    let cs := ((splitCh '/' p).foldl (cleanStep rooted) []).reverse
    if rooted then '/' :: intercalateCh '/' cs
    else if cs = [] then ['.']
    else intercalateCh '/' cs

/-- Go `path.Join`: skip leading empty elements, join the remainder
(including interior empties) with slashes and clean; all-empty input
yields the empty string. -/
def goPathJoin (parts : List GoStr) : GoStr :=
  match parts.dropWhile (· = []) with
  | [] => []
  | l => pathClean (intercalateCh '/' l)

/-! ### Go net/url URLs (restricted to absolute ASCII http-style URLs)

The embedded parser accepts the shape
`scheme://[user@]host[/path][?query][#fragment]` with an ASCII-printable
input, an alphanumeric userinfo and a host made of letters, digits, dots
and dashes with an optional decimal port.  Inputs Go would additionally
accept (relative references, opaque URLs, IPv6 hosts, percent-encoded
hosts or userinfo, non-ASCII bytes) are outside the embedded domain; on
its domain the parser follows Go 1.14 `net/url.Parse` step by step. -/

/-- A parsed URL: the fields of Go `url.URL` that the crawler touches
(`Opaque` is always empty on the embedded domain). -/
structure GoURL where
  scheme : GoStr
  user : Option GoStr
  host : GoStr
  path : GoStr
  rawPath : GoStr
  forceQuery : Bool
  rawQuery : GoStr
  fragment : GoStr
  deriving Repr, DecidableEq

/-- Control characters (rejected by Go's parser) together with the
non-ASCII range excluded from the embedded domain. -/
def isCtlOrHigh (c : Char) : Bool := c.toNat < 32 || 127 ≤ c.toNat

/-- Characters allowed after the first character of a scheme. -/
def validSchemeChar (c : Char) : Bool := isAlnum c || c = '+' || c = '-' || c = '.'

/-- Scheme shape check, as Go `getScheme` enforces. -/
def validScheme (s : GoStr) : Bool :=
  match s with
  | [] => false
  | c :: rest => isAlpha c && rest.all validSchemeChar

/-- Restricted host grammar: a nonempty name over letters, digits, dots
and dashes, optionally followed by a colon and decimal digits. -/
def validHost (s : GoStr) : Bool :=
  let name := s.takeWhile (· ≠ ':')
  let rest := s.dropWhile (· ≠ ':')
  (decide (name ≠ [])) && name.all (fun c => isAlnum c || c = '.' || c = '-') &&
    (rest.isEmpty || (decide (rest.head? = some ':') && rest.tail.all isDigit))

/-- Restricted userinfo grammar: alphanumeric. -/
def validUser (s : GoStr) : Bool := s.all isAlnum

/-- Split a list at the last occurrence of a separator, as the
`strings.LastIndex` split in Go `parseAuthority`. -/
def splitLast (c : Char) : GoStr → Option (GoStr × GoStr)
  | [] => none
  | x :: xs =>
    match splitLast c xs with
    | some (a, b) => some (x :: a, b)
    | none => if x = c then some ([], xs) else none

/-- Embeds Go 1.14 `url.Parse` on the restricted domain: split the
fragment at the first hash, read the scheme up to the colon, detect a
lone trailing question mark (ForceQuery) or split the raw query at the
first question mark, require an authority introduced by two slashes and
split it at the first slash, split userinfo at the last at-sign, and
percent-decode the path, recording `RawPath` only when it differs from
the re-encoded path. -/
def parseURL (s : GoStr) : Option GoURL :=
  if s.any isCtlOrHigh then none
  else
    let rest0 := s.takeWhile (· ≠ '#')
    let fragRaw := match s.dropWhile (· ≠ '#') with | [] => ([] : GoStr) | _ :: f => f
    match unescapePath fragRaw with
    | none => none
    | some frag =>
      let schemeRaw := rest0.takeWhile (· ≠ ':')
      if validScheme schemeRaw then
        match rest0.dropWhile (· ≠ ':') with
        | ':' :: afterColon =>
          let fq : Bool := afterColon.getLast? = some '?' && !afterColon.dropLast.contains '?'
          let rest1 := if fq then afterColon.dropLast else afterColon.takeWhile (· ≠ '?')
          let rawQuery : GoStr :=
            if fq then []
            else match afterColon.dropWhile (· ≠ '?') with | [] => [] | _ :: q => q
          match rest1 with
          | '/' :: '/' :: rest2 =>
            let authority := rest2.takeWhile (· ≠ '/')
            let pathRaw := rest2.dropWhile (· ≠ '/')
            let user : Option GoStr :=
              match splitLast '@' authority with
              | some (us, _) => some us
              | none => none
            let host : GoStr :=
              match splitLast '@' authority with
              | some (_, h) => h
              | none => authority
            if (match user with | some us => validUser us | none => true) && validHost host then
              match unescapePath pathRaw with
              | none => none
              | some path =>
                some { scheme := toLower schemeRaw
                       user := user
                       host := host
                       path := path
                       rawPath := if escapePath path = pathRaw then [] else pathRaw
                       forceQuery := fq
                       rawQuery := rawQuery
                       fragment := frag }
            else none
          | _ => none
        | _ => none
      else none

/-- Go `URL.EscapedPath`: prefer a `RawPath` that is a valid encoding of
`Path`, special-case the literal asterisk, otherwise re-encode. -/
def escapedPath (path rawPath : GoStr) : GoStr :=
  if rawPath ≠ [] ∧ validEncodedPath rawPath ∧ unescapePath rawPath = some path
  then rawPath
  else if path = ['*'] then ['*']
  else escapePath path

/-- The relative-path guard of Go `URL.String`: does the first path
segment contain a colon? -/
def firstSegmentHasColon (p : GoStr) : Bool :=
  (p.dropWhile (· ≠ ':') ≠ []) && !(p.takeWhile (· ≠ ':')).contains '/'

/-- Embeds Go 1.14 `URL.String` for non-opaque URLs. -/
def urlString (u : GoURL) : GoStr :=
  let buf0 := if u.scheme ≠ [] then u.scheme ++ [':'] else []
  let buf1 :=
    if u.scheme ≠ [] ∨ u.host ≠ [] ∨ u.user.isSome then
      (if u.host ≠ [] ∨ u.path ≠ [] ∨ u.user.isSome then buf0 ++ ['/', '/'] else buf0) ++
        (match u.user with | some us => escapeUser us ++ ['@'] | none => []) ++
        escapeHost u.host
    else buf0
  let p := escapedPath u.path u.rawPath
  let buf2 := buf1 ++ (if p ≠ [] ∧ p.head? ≠ some '/' ∧ u.host ≠ [] then ['/'] else [])
  let buf3 := buf2 ++ (if buf2 = [] ∧ firstSegmentHasColon p then ['.', '/'] else [])
  let buf4 := buf3 ++ p
  let buf5 := buf4 ++ (if u.forceQuery = true ∨ u.rawQuery ≠ [] then '?' :: u.rawQuery else [])
  buf5 ++ (if u.fragment ≠ [] then '#' :: escapeFragment u.fragment else [])

/-! ### The normalize package (internal/normalize) -/

/-- Embeds `normalize.hostname`: lowercase the host and strip a default
port (the scheme argument is the URL's scheme at the time of the call,
which `normalize.URL` has already lowercased). -/
def hostnameNorm (scheme host : GoStr) : GoStr :=
  let h := toLower host
  let rest := h.dropWhile (· ≠ ':')
  if rest.head? = some ':' then
    if scheme = "http".data ∧ rest.tail = "80".data then h.takeWhile (· ≠ ':')
    else if scheme = "https".data ∧ rest.tail = "443".data then h.takeWhile (· ≠ ':')
    else h
  else h

/-- Embeds `normalize.pathname`: an empty or root path becomes the root;
any other path is split on slashes and rejoined with `path.Join`. -/
def pathname (p : GoStr) : GoStr :=
  if p = [] ∨ p = ['/'] then ['/']
  else goPathJoin (splitCh '/' p)

/-- Embeds `normalize.query`: split a nonempty raw query on ampersands,
sort the raw `key=value` tokens with `sort.Strings`, and rejoin. -/
def queryNorm (q : GoStr) : GoStr :=
  if q ≠ [] then intercalateCh '&' (List.insertionSort GoLe (splitCh '&' q))
  else []

/-- Embeds `normalize.URL`: lowercase the scheme, normalize host, path
and query, clear ForceQuery and the fragment.  `RawPath` and the user
information are untouched, exactly as in the source. -/
def normalizeURL (u : GoURL) : GoURL :=
  let scheme := toLower u.scheme
  { u with
      scheme := scheme
      host := hostnameNorm scheme u.host
      path := pathname u.path
      rawQuery := queryNorm u.rawQuery
      forceQuery := false
      fragment := [] }

/-- Embeds `normalize.RawURL`: parse, normalize, serialize. -/
def rawURL (s : GoStr) : Option GoStr :=
  (parseURL s).map (fun u => urlString (normalizeURL u))

/-- String-typed wrapper of `rawURL` for readable statements. -/
def RawURL (s : String) : Option String :=
  (rawURL s.data).map (fun l => String.mk l)


/-! ### Work queue (queue.go, memoryQueue)

The queue state is the triple guarded by the condition variable's lock:
the pending FIFO, the stopped flag and the WaitGroup counter.  A context
is represented by whether its `Err()` is non-nil at the time of the
call. -/

/-- State of `memoryQueue`: `pending` and `stopped` as in the struct,
`outstanding` is the value of the `sync.WaitGroup` counter. -/
structure MemQueue where
  pending : List GoURL
  stopped : Bool
  outstanding : Nat
  deriving Repr, DecidableEq

/-- Outcome of `memoryQueue.Enqueue`: success (recording whether the
condition variable was broadcast), the `io.EOF` error, or the context's
error. -/
inductive EnqueueOut where
  | ok (signalled : Bool)
  | eofErr
  | ctxErr
  deriving Repr, DecidableEq

/-- Embeds `memoryQueue.Enqueue` under the lock: empty input is a no-op,
then the stopped check, then the context check, then append, add to the
WaitGroup and broadcast. -/
def memEnqueue (q : MemQueue) (ctxCancelled : Bool) (urls : List GoURL) :
    EnqueueOut × MemQueue :=
  if urls.length = 0 then (.ok false, q)
  else if q.stopped then (.eofErr, q)
  else if ctxCancelled then (.ctxErr, q)
  else (.ok true,
        { q with pending := q.pending ++ urls,
                 outstanding := q.outstanding + urls.length })

/-- Outcome of `memoryQueue.Dequeue`: still blocked in the wait loop,
the context's error, `io.EOF`, or a popped URL. -/
inductive DequeueOut where
  | blocked
  | ctxErr
  | eofErr
  | popped (u : GoURL)

/-- Embeds `memoryQueue.Dequeue` under the lock: the wait loop blocks
while the queue is empty, not stopped and the context is live; once the
loop exits the context error is checked first, then the stopped flag,
and only then is the front URL popped. -/
def memDequeue (q : MemQueue) (ctxCancelled : Bool) : DequeueOut × MemQueue :=
  if q.pending.length = 0 ∧ ¬q.stopped ∧ ¬ctxCancelled then (.blocked, q)
  else if ctxCancelled then (.ctxErr, q)
  else if q.stopped then (.eofErr, q)
  else
    match q.pending with
    | [] => (.eofErr, q)
    | u :: rest => (.popped u, { q with pending := rest })

/-! ### Deduper (dedupe.go, map variant) and the engine admission
pipeline (engine.go)

The `sync.Map` of visited URL strings is a list of keys; the atomic
`LoadOrStore` per URL makes each batch a fold over its URLs. -/

/-- Embeds `deduper.Dedupe` (the `DedupeMap` variant): walk the batch,
return the URLs whose string is not yet in the visited set, recording
each returned URL's string. -/
def dedupeMap (seen : List GoStr) (urls : List GoURL) : List GoURL × List GoStr :=
  urls.foldl
    (fun (acc : List GoURL × List GoStr) u =>
      if urlString u ∈ acc.2 then acc
      else (acc.1 ++ [u], urlString u :: acc.2))
    ([], seen)

/-- Engine state for the admission invariant: the deduper's visited set,
the queue's pending URLs, and the URLs scrape has been invoked on (in
invocation order). -/
structure EngineState where
  seen : List GoStr
  pending : List GoURL
  scraped : List GoURL

/-- Embeds `Engine.enqueue`: normalize the batch in place, filter
through the matcher (an absent matcher admits everything), de-duplicate,
and append the survivors to the queue. -/
def engineEnqueue (matcher : GoURL → Bool) (batch : List GoURL)
    (s : EngineState) : EngineState :=
  let normed := batch.map normalizeURL
  let matched := normed.filter matcher
  let step := dedupeMap s.seen matched
  { s with seen := step.2, pending := s.pending ++ step.1 }

/-- One transition of an engine run: a (seed or scraper-produced) batch
goes through the admission pipeline, or a worker dequeues the front URL
and either invokes the scraper on it or drops it (robots denial, fetch
error, 404). -/
inductive EngineStep (matcher : GoURL → Bool) : EngineState → EngineState → Prop where
  | enqueue (batch : List GoURL) (s : EngineState) :
      EngineStep matcher s (engineEnqueue matcher batch s)
  | processScrape (u : GoURL) (rest : List GoURL) (s : EngineState) :
      s.pending = u :: rest →
      EngineStep matcher s { s with pending := rest, scraped := s.scraped ++ [u] }
  | processSkip (u : GoURL) (rest : List GoURL) (s : EngineState) :
      s.pending = u :: rest →
      EngineStep matcher s { s with pending := rest }

/-- States reachable from the start of a run (empty deduper, empty
queue, nothing scraped). -/
def EngineReachable (matcher : GoURL → Bool) (s : EngineState) : Prop :=
  Relation.ReflTransGen (EngineStep matcher) ⟨[], [], []⟩ s

/-! ### Fetcher (fetcher source, retry loop and backoff) -/

/-- Nanoseconds in the default `minBackoff` (50 ms). -/
def minBackoffDefault : Int := 50000000

/-- Nanoseconds in the default `maxBackoff` (1 s). -/
def maxBackoffDefault : Int := 1000000000

/-- The configurable `Fetcher` fields relevant to retries (durations in
nanoseconds, as Go `time.Duration`). -/
structure FetcherCfg where
  MaxAttempts : Int := 0
  MinBackoff : Int := 0
  MaxBackoff : Int := 0
  deriving Repr, DecidableEq

/-- Embeds `Fetcher.maxAttempts`. -/
def FetcherCfg.maxAttempts (f : FetcherCfg) : Int :=
  if f.MaxAttempts > 0 then f.MaxAttempts else 5

/-- Embeds `Fetcher.minBackoff`. -/
def FetcherCfg.minBackoff (f : FetcherCfg) : Int :=
  if f.MinBackoff > 0 then f.MinBackoff else minBackoffDefault

/-- Embeds `Fetcher.maxBackoff`. -/
def FetcherCfg.maxBackoff (f : FetcherCfg) : Int :=
  if f.MaxBackoff > 0 then f.MaxBackoff else maxBackoffDefault

/-- Embeds the duration computation of `Fetcher.backoff`: the attempt
squared times the floor, capped at the ceiling; a floor at or above the
ceiling is a configuration error (`none`). -/
def FetcherCfg.backoffDur (f : FetcherCfg) (attempt : Int) : Option Int :=
  let mn := f.minBackoff
  let mx := f.maxBackoff
  let dur := attempt * attempt * mn
  if mn ≥ mx then none
  else some (if dur > mx then mx else dur)

/-- One answer of the HTTP client for one attempt: a transport error
(with its `Temporary()` bit) or a response with status and body. -/
inductive ClientResp where
  | err (temporary : Bool)
  | resp (status : Nat) (body : GoStr)
  deriving Repr, DecidableEq

/-- Errors `Fetcher.fetch` can surface: a wrapped transport error or a
`FetchError` carrying the status code. -/
inductive FErr where
  | netErr (temporary : Bool)
  | fetchErr (status : Nat)
  deriving Repr, DecidableEq

/-- Embeds `FetchError.Temporary`. -/
def fetchErrTemporary (status : Nat) : Bool :=
  status = 503 || status = 504 || status = 429

/-- Embeds `isTemporary`: a transport error reports its own bit, a
`FetchError` uses `FetchError.Temporary`, and that is the whole universe
of errors produced by `Fetcher.fetch`. -/
def isTemporaryF : FErr → Bool
  | .netErr t => t
  | .fetchErr s => fetchErrTemporary s

/-- Embeds the classification inside `Fetcher.fetch`: transport errors
are returned as errors, statuses of at least 400 become a `FetchError`,
anything else is a successful response. -/
def classifyFetch : ClientResp → Except FErr (Nat × GoStr)
  | .err t => .error (.netErr t)
  | .resp s b => if s ≥ 400 then .error (.fetchErr s) else .ok (s, b)

/-- Result of `Fetcher.Fetch`: a page, the 404 nil-nil success, a fatal
error, the max-attempts error (wrapping the last error), or the
min/max-backoff misconfiguration error. -/
inductive FetchResult where
  | page (status : Nat) (body : GoStr)
  | noPage
  | fatal (e : FErr)
  | maxed (lastErr : Option FErr)
  | backoffFail
  deriving Repr, DecidableEq

/-- The retry loop of `Fetcher.Fetch`, with the client abstracted as the
response it gives to each attempt number (starting at 1).  `remaining`
counts the attempts still allowed (so the loop guard `attempt >
maxAttempts` is `remaining = 0`); the second component counts the client
calls made.  Context cancellation during the backoff sleep is not
modelled (the sleep always completes). -/
def fetchLoop (f : FetcherCfg) (client : Nat → ClientResp) (attempt : Nat) :
    Nat → Option FErr → FetchResult × Nat
  | 0, lastErr => (.maxed lastErr, 0)
  | remaining + 1, _ =>
    let cur := attempt + 1
    match classifyFetch (client cur) with
    | .ok sb => (.page sb.1 sb.2, 1)
    | .error e =>
      if isTemporaryF e then
        match f.backoffDur (Int.ofNat cur) with
        | none => (.backoffFail, 1)
        | some _ =>
          let next := fetchLoop f client cur remaining (some e)
          (next.1, next.2 + 1)
      else if e = .fetchErr 404 then (.noPage, 1)
      else (.fatal e, 1)

/-- Embeds `Fetcher.Fetch`: run the retry loop from attempt zero with
`maxAttempts` attempts allowed. -/
def fetchModel (f : FetcherCfg) (client : Nat → ClientResp) : FetchResult × Nat :=
  fetchLoop f client 0 f.maxAttempts.toNat none

/-! ### Robots cache (internal/robots) -/

/-- A robots group, of which only the crawl delay matters to `Wait`
(nanoseconds). -/
structure RobotsGroup where
  crawlDelay : Int

/-- Parsed robots.txt data, abstracted by the two queries the cache
makes of `robotstxt.RobotsData`. -/
structure RobotsData where
  testAgent : GoStr → String → Bool
  findGroup : String → Option RobotsGroup

/-- Embeds `robots.Host`: an absent `data` is the permissive record. -/
structure RHost where
  data : Option RobotsData

/-- Embeds `Host.test`: permissive when `data` is nil. -/
def RHost.test (h : RHost) (path : GoStr) (ua : String) : Bool :=
  match h.data with
  | some d => d.testAgent path ua
  | none => true

/-- Embeds `Host.find`: no groups when `data` is nil. -/
def RHost.find (h : RHost) (ua : String) : Option RobotsGroup :=
  match h.data with
  | some d => d.findGroup ua
  | none => none

/-- Embeds `Request.userAgent`: empty defaults to `*`. -/
def robotsUserAgent (ua : String) : String := if ua ≠ "" then ua else "*"

/-- What fetching `robots.txt` for a host produces: a transport error,
or a status plus the outcome of `robotstxt.FromResponse` (`none` is a
parse error; it is only consulted for statuses below 400). -/
inductive RobotsFetch where
  | netErr
  | resp (status : Nat) (parsed : Option RobotsData)

/-- The LRU content, host name to record (TTL expiry is not modelled;
an entry present means a live entry). -/
def RobotsLRU := List (String × RHost)

/-- Store a record in the LRU, overwriting any entry for the host. -/
def lruSet (lru : RobotsLRU) (host : String) (h : RHost) : RobotsLRU :=
  (host, h) :: lru.filter (fun kv => kv.1 ≠ host)

/-- Look up a host in the LRU. -/
def lruGet (lru : RobotsLRU) (host : String) : Option RHost :=
  (lru.find? (fun kv => kv.1 = host)).map (fun kv => kv.2)

/-- Embeds `Cache.lookup`: serve from the LRU when present; otherwise
fetch `robots.txt`.  A transport error is returned as an error (nothing
is stored); a status of at least 400 stores and returns the permissive
record; otherwise the parse outcome is stored on success and a parse
error is returned as an error. -/
def robotsLookup (client : String → RobotsFetch) (lru : RobotsLRU)
    (host : String) : Option RHost × RobotsLRU :=
  match lruGet lru host with
  | some h => (some h, lru)
  | none =>
    match client host with
    | .netErr => (none, lru)
    | .resp status parsed =>
      if status ≥ 400 then (some ⟨none⟩, lruSet lru host ⟨none⟩)
      else
        match parsed with
        | none => (none, lru)
        | some d => (some ⟨some d⟩, lruSet lru host ⟨some d⟩)

/-- Embeds `Cache.Allowed`: normalize a missing leading slash on the
path, look the host up, and ask the record; errors propagate. -/
def robotsAllowed (client : String → RobotsFetch) (lru : RobotsLRU)
    (host : String) (path : GoStr) (ua : String) : Option Bool × RobotsLRU :=
  let path := if path.length > 0 ∧ path.head? ≠ some '/' then '/' :: path else path
  match robotsLookup client lru host with
  | (none, l) => (none, l)
  | (some h, l) => (some (h.test path (robotsUserAgent ua)), l)

/-- Embeds `Cache.Wait`, returning the duration slept: zero when the
agent's group is absent or has no positive crawl delay. -/
def robotsWaitDur (client : String → RobotsFetch) (lru : RobotsLRU)
    (host : String) (ua : String) : Option Int × RobotsLRU :=
  match robotsLookup client lru host with
  | (none, l) => (none, l)
  | (some h, l) =>
    match h.find (robotsUserAgent ua) with
    | some g => (some (if g.crawlDelay > 0 then g.crawlDelay else 0), l)
    | none => (some 0, l)

/-! ### HTTP cache (antcache)

The embedded `Cache.Do` and `Cache.verify` follow the httpcache variant
that the antcache tests exercise (the one setting `X-From-Cache` and
handling stale-if-error, merged into the repository alongside
`directives.go` and `utils.go`).  The storage stores response values
directly, abstracting the byte framing, and the deferred
store-on-body-close is modelled as an immediate store. -/

/-- An HTTP request: method, URL and single-valued headers with
canonical keys. -/
structure HttpReq where
  method : String
  url : String
  header : List (String × String)
  deriving Repr, DecidableEq

/-- An HTTP response, carrying the request it answered as
`http.Response.Request` does. -/
structure HttpResp where
  status : Nat
  header : List (String × String)
  body : GoStr
  request : HttpReq
  deriving Repr, DecidableEq

/-- Header read, as `http.Header.Get` (empty when absent). -/
def getH (h : List (String × String)) (k : String) : String :=
  match h.find? (fun kv => kv.1 = k) with
  | some kv => kv.2
  | none => ""

/-- Header write, as `http.Header.Set`. -/
def setH (h : List (String × String)) (k v : String) : List (String × String) :=
  (k, v) :: h.filter (fun kv => kv.1 ≠ k)

/-- Whitespace recognized when header values are split. -/
def isSpaceCh (c : Char) : Bool := c = ' ' ∨ c = '\t' ∨ c = '\n' ∨ c = '\r'

/-- Embeds `strings.TrimSpace` for ASCII whitespace. -/
def goTrimSpace (s : GoStr) : GoStr :=
  ((s.dropWhile isSpaceCh).reverse.dropWhile isSpaceCh).reverse

/-- Embeds antcache `split`: split, trim, drop empties, lowercase. -/
def splitHeaderList (str : GoStr) (sep : Char) : List GoStr :=
  ((splitCh sep str).map goTrimSpace).filter (fun v => v ≠ []) |>.map toLower

/-- Embeds `directivesFrom`: parse `Cache-Control` into
name/value pairs, splitting each item at the first equals sign. -/
def directivesFrom (h : List (String × String)) : List (GoStr × GoStr) :=
  (splitHeaderList (getH h "Cache-Control").data ',').map (fun item =>
    match item.dropWhile (fun c => c ≠ '=') with
    | _ :: v => (item.takeWhile (fun c => c ≠ '='), v)
    | [] => (item, []))

/-- Embeds `directives.has`. -/
def hasDirective (d : List (GoStr × GoStr)) (name : GoStr) : Bool :=
  d.any (fun kv => kv.1 = name)

/-- The hop-by-hop headers `merge` never copies. -/
def hopByHop : List String :=
  ["Keep-Alive", "Proxy-Authenticate", "Proxy-Authorization", "Te",
   "Trailers", "Transfer-Encoding", "Upgrade"]

/-- Embeds antcache `merge`: copy every non-hop-by-hop header of `b`
into `a`. -/
def mergeH (a b : List (String × String)) : List (String × String) :=
  b.foldl (fun acc kv => if kv.1 ∈ hopByHop then acc else setH acc kv.1 kv.2) a

/-- The antcache freshness tri-state. -/
inductive Freshness where
  | fresh
  | stale
  | transparent
  deriving Repr, DecidableEq

/-- A cache strategy, as the antcache `strategy` interface. -/
structure CacheStrategy where
  cache : HttpReq → Bool
  store : HttpResp → Bool
  fresh : HttpResp → Freshness

/-- Cache storage content: key to stored response (the byte framing and
`http.ReadResponse` round-trip are abstracted away). -/
def CacheStore := List (String × HttpResp)

/-- Store under a key, overwriting. -/
def cstoreSet (st : CacheStore) (k : String) (v : HttpResp) : CacheStore :=
  (k, v) :: st.filter (fun kv => kv.1 ≠ k)

/-- Load a key. -/
def cstoreGet (st : CacheStore) (k : String) : Option HttpResp :=
  (st.find? (fun kv => kv.1 = k)).map (fun kv => kv.2)

/-- Embeds `keyof` up to the murmur3 hash: the cache key is determined
by `METHOD ":" URL` (the hash input), idealized as collision-free. -/
def keyof (req : HttpReq) : String := req.method ++ ":" ++ req.url

/-- Outcome of `Cache.verify` / `Cache.load`: an error, a miss that
falls through to the origin, or a served response. -/
inductive VerifyOut where
  | err
  | miss
  | hit (resp : HttpResp)

/-- The request-building half of `Cache.verify`: clone the stored
response's request and populate `If-None-Match` / `If-Modified-Since`
from the stored `Etag` / `Last-Modified` headers when the request does
not already carry them. -/
def validatingReq (resp : HttpResp) : HttpReq :=
  let req0 := resp.request
  let req1 :=
    if getH resp.header "Etag" ≠ "" ∧ getH req0.header "If-None-Match" = "" then
      { req0 with header := setH req0.header "If-None-Match" (getH resp.header "Etag") }
    else req0
  if getH resp.header "Last-Modified" ≠ "" ∧ getH req1.header "If-Modified-Since" = "" then
    { req1 with header := setH req1.header "If-Modified-Since" (getH resp.header "Last-Modified") }
  else req1

/-- Embeds `Cache.verify` of the tested httpcache variant, additionally
returning the validating request it sent (built by `validatingReq`): on
a 5xx answer return the stored response if the request carries the
`stale-if-error` directive and the new response otherwise; on 304 merge
the origin headers into the stored response, re-store and return it; on
a storable full response store and return it; otherwise report a
miss. -/
def cacheVerify (strat : CacheStrategy) (client : HttpReq → Option HttpResp)
    (key : String) (resp : HttpResp) (st : CacheStore) :
    VerifyOut × CacheStore × HttpReq :=
  match client (validatingReq resp) with
  | none => (.err, st, validatingReq resp)
  | some newresp =>
    if 500 ≤ newresp.status ∧ newresp.status < 600 then
      if hasDirective (directivesFrom (validatingReq resp).header)
          "stale-if-error".data then
        (.hit resp, st, validatingReq resp)
      else (.hit newresp, st, validatingReq resp)
    else if newresp.status = 304 then
      (.hit { resp with header := mergeH resp.header newresp.header },
       cstoreSet st key { resp with header := mergeH resp.header newresp.header },
       validatingReq resp)
    else if strat.store newresp then
      (.hit newresp, cstoreSet st key newresp, validatingReq resp)
    else (.miss, st, validatingReq resp)

/-- Embeds `Cache.load`: absent key is a miss; a fresh stored response
is a hit, a stale one is verified, a transparent one is a miss. -/
def cacheLoad (strat : CacheStrategy) (client : HttpReq → Option HttpResp)
    (key : String) (_req : HttpReq) (st : CacheStore) : VerifyOut × CacheStore :=
  match cstoreGet st key with
  | none => (.miss, st)
  | some stored =>
    match strat.fresh stored with
    | .fresh => (.hit stored, st)
    | .stale =>
      let v := cacheVerify strat client key stored st
      (v.1, v.2.1)
    | .transparent => (.miss, st)

/-- Embeds `Cache.Do` of the tested httpcache variant: requests the
strategy refuses to cache pass straight through to the client; cache
hits gain `X-From-Cache: 1`; on a miss the origin response is stored
when the strategy allows. -/
def cacheDo (strat : CacheStrategy) (client : HttpReq → Option HttpResp)
    (st : CacheStore) (req : HttpReq) : Option HttpResp × CacheStore :=
  if ¬ strat.cache req then (client req, st)
  else
    let key := keyof req
    match cacheLoad strat client key req st with
    | (.err, st1) => (none, st1)
    | (.hit resp, st1) =>
      (some { resp with header := setH resp.header "X-From-Cache" "1" }, st1)
    | (.miss, st1) =>
      match client req with
      | none => (none, st1)
      | some resp =>
        if strat.store resp then (some resp, cstoreSet st1 key resp)
        else (some resp, st1)

/-! ## Lemmas and theorems -/

theorem goStrLe_total : ∀ a b : GoStr, goStrLe a b = true ∨ goStrLe b a = true := by
  intro a
  induction a with
  | nil => intro b; left; rfl
  | cons x xs ih =>
    intro b
    cases b with
    | nil => right; rfl
    | cons y ys =>
      simp only [goStrLe]
      by_cases hxy : x = y
      · subst hxy; simp only [if_pos rfl]; exact ih ys
      · have hne : y ≠ x := fun h => hxy h.symm
        rcases lt_or_gt_of_ne hxy with h | h
        · left; simp [hxy, h]
        · right; simp [hne, h]

theorem goStrLe_trans : ∀ a b c : GoStr,
    goStrLe a b = true → goStrLe b c = true → goStrLe a c = true := by
  intro a
  induction a with
  | nil => intro b c _ _; rfl
  | cons x xs ih =>
    intro b c hab hbc
    cases b with
    | nil => simp [goStrLe] at hab
    | cons y ys =>
      cases c with
      | nil => simp [goStrLe] at hbc
      | cons z zs =>
        simp only [goStrLe] at hab hbc ⊢
        by_cases hxy : x = y
        · subst hxy
          simp only [if_pos rfl] at hab
          by_cases hyz : x = z
          · subst hyz
            simp only [if_pos rfl] at hbc ⊢
            exact ih ys zs hab hbc
          · simp only [if_neg hyz] at hbc ⊢
            exact hbc
        · simp only [if_neg hxy] at hab
          by_cases hyz : y = z
          · subst hyz; simp [hxy]; simpa [hxy] using hab
          · simp only [if_neg hyz] at hbc
            have hxz : x < z := lt_trans (of_decide_eq_true hab) (of_decide_eq_true hbc)
            have : x ≠ z := ne_of_lt hxz
            simp [this, hxz]

instance : IsTotal GoStr GoLe := ⟨goStrLe_total⟩

instance : IsTrans GoStr GoLe := ⟨goStrLe_trans⟩

theorem splitCh_ne_nil (c : Char) (s : GoStr) : splitCh c s ≠ [] := by
  induction s with
  | nil => simp [splitCh]
  | cons x xs ih =>
    simp only [splitCh]
    by_cases h : x = c
    · simp [h]
    · simp only [if_neg h]
      cases hs : splitCh c xs with
      | nil => simp
      | cons y ys => simp

theorem mem_splitCh_not_sep (c : Char) (s : GoStr) :
    ∀ p ∈ splitCh c s, c ∉ p := by
  induction s with
  | nil => intro p hp; simp [splitCh] at hp; simp [hp]
  | cons x xs ih =>
    intro p hp
    simp only [splitCh] at hp
    by_cases h : x = c
    · simp only [if_pos h, List.mem_cons] at hp
      rcases hp with hp | hp
      · simp [hp]
      · exact ih p hp
    · simp only [if_neg h] at hp
      cases hs : splitCh c xs with
      | nil => exact absurd hs (splitCh_ne_nil c xs)
      | cons y ys =>
        rw [hs] at hp
        simp only [List.mem_cons] at hp
        rcases hp with hp | hp
        · subst hp
          intro hmem
          rcases List.mem_cons.mp hmem with h1 | h1
          · exact h (h1.symm)
          · exact ih y (hs ▸ List.mem_cons_self y ys) h1
        · exact ih p (hs ▸ List.mem_cons_of_mem y hp)

theorem intercalate_splitCh (c : Char) (s : GoStr) :
    intercalateCh c (splitCh c s) = s := by
  induction s with
  | nil => rfl
  | cons x xs ih =>
    simp only [splitCh]
    by_cases h : x = c
    · subst h
      simp only [if_pos rfl, intercalateCh]
      cases hs : splitCh x xs with
      | nil => exact absurd hs (splitCh_ne_nil x xs)
      | cons y ys =>
        rw [hs] at ih
        simpa [intercalateCh] using ih
    · simp only [if_neg h]
      cases hs : splitCh c xs with
      | nil => exact absurd hs (splitCh_ne_nil c xs)
      | cons y ys =>
        rw [hs] at ih
        simpa [intercalateCh] using ih

theorem splitCh_cons_sep (c : Char) (xs : GoStr) :
    splitCh c (c :: xs) = [] :: splitCh c xs := by
  simp [splitCh]

theorem splitCh_intercalate (c : Char) (parts : List GoStr)
    (hne : parts ≠ []) (hsep : ∀ p ∈ parts, c ∉ p) :
    splitCh c (intercalateCh c parts) = parts := by
  induction parts with
  | nil => exact absurd rfl hne
  | cons p ps ih =>
    cases ps with
    | nil =>
      simp only [intercalateCh, List.flatMap_nil, List.append_nil]
      have hp : c ∉ p := hsep p (List.mem_cons_self p [])
      clear ih hne hsep
      induction p with
      | nil => rfl
      | cons x xs ihx =>
        have hx : x ≠ c := fun h => hp (h ▸ List.mem_cons_self x xs)
        have hxs : c ∉ xs := fun h => hp (List.mem_cons_of_mem x h)
        simp only [splitCh, if_neg hx, ihx hxs]
    | cons q qs =>
      have hps : splitCh c (intercalateCh c (q :: qs)) = q :: qs :=
        ih (by simp) (fun r hr => hsep r (List.mem_cons_of_mem p hr))
      have hp : c ∉ p := hsep p (List.mem_cons_self p _)
      have hflat : intercalateCh c (p :: q :: qs)
          = p ++ c :: intercalateCh c (q :: qs) := by
        simp [intercalateCh]
      rw [hflat]
      clear ih hne hsep hflat
      induction p with
      | nil =>
        simpa [splitCh] using hps
      | cons x xs ihx =>
        have hx : x ≠ c := fun h => hp (h ▸ List.mem_cons_self x xs)
        have hxs : c ∉ xs := fun h => hp (List.mem_cons_of_mem x h)
        have h2 := ihx hxs
        simp only [List.cons_append, splitCh, if_neg hx, List.append_eq]
        rw [h2]

/-! ### Percent encoding (Go net/url escape / unescape, path mode) -/

/-! ### Claim C3: the S6 normalization vector -/

/-- C3: for each input of the spec's S6 normalization table, normalizing
the input string yields exactly the listed output string. -/
theorem c3_s6_normalization_vector :
    RawURL "http://example.com/foo%2a" = some "http://example.com/foo%2A" ∧
    RawURL "HTTP://User@Example.COM/Foo" = some "http://User@example.com/Foo" ∧
    RawURL "http://example.com/%7Efoo" = some "http://example.com/~foo" ∧
    RawURL "http://example.com/foo/./bar/baz/../qux"
      = some "http://example.com/foo/bar/qux" ∧
    RawURL "http://example.com" = some "http://example.com/" ∧
    RawURL "http://example.com:80/" = some "http://example.com/" ∧
    RawURL "https://example.com:443/" = some "https://example.com/" ∧
    RawURL "http://example.com/?" = some "http://example.com/" ∧
    RawURL "http://example.com/?a=1&c=3&b=2"
      = some "http://example.com/?a=1&b=2&c=3" ∧
    RawURL "http://example.com/#foo" = some "http://example.com/" := by
  refine ⟨?_, ?_, ?_, ?_, ?_, ?_, ?_, ?_, ?_, ?_⟩ <;> decide

/-! ### Claim C8: memoryQueue.Enqueue -/

/-- C8: a zero-length enqueue is a no-op returning no error; otherwise a
closed queue fails with the EOF-kind error, a cancelled context returns
the cancellation error, and a live open queue appends the URLs,
increments outstanding by their number and broadcasts to waiters. -/
theorem c8_queue_enqueue (q : MemQueue) (ctx : Bool) (urls : List GoURL) :
    (urls = [] → memEnqueue q ctx urls = (.ok false, q)) ∧
    (urls ≠ [] → q.stopped = true → memEnqueue q ctx urls = (.eofErr, q)) ∧
    (urls ≠ [] → q.stopped = false → ctx = true →
      memEnqueue q ctx urls = (.ctxErr, q)) ∧
    (urls ≠ [] → q.stopped = false → ctx = false →
      memEnqueue q ctx urls =
        (.ok true, { q with pending := q.pending ++ urls,
                            outstanding := q.outstanding + urls.length })) := by
  refine ⟨?_, ?_, ?_, ?_⟩
  · intro h; subst h; simp [memEnqueue]
  · intro h hs
    have hlen : ¬ urls.length = 0 := by simpa using h
    simp [memEnqueue, hlen, hs]
  · intro h hs hc
    have hlen : ¬ urls.length = 0 := by simpa using h
    simp [memEnqueue, hlen, hs, hc]
  · intro h hs hc
    have hlen : ¬ urls.length = 0 := by simpa using h
    simp [memEnqueue, hlen, hs, hc]

/-- Witness for C8 at concrete inputs: enqueueing one URL on a closed
queue fails with the EOF-kind error and leaves the queue unchanged. -/
theorem c8_queue_enqueue_witness :
    memEnqueue ⟨[], true, 0⟩ false
        [⟨"http".data, none, "a".data, "/".data, [], false, [], []⟩]
      = (.eofErr, ⟨[], true, 0⟩) :=
  (c8_queue_enqueue ⟨[], true, 0⟩ false
      [⟨"http".data, none, "a".data, "/".data, [], false, [], []⟩]).2.1
    (by simp) rfl

/-! ### Claim C10: memoryQueue.Dequeue under cancellation -/

/-- C10: a cancelled context makes Dequeue return the context's error
with the queue unchanged even when URLs are pending, and a URL is popped
only when the context is live and the queue is neither stopped nor
closed-with-empty-pending; the popped URL is the front of the FIFO. -/
theorem c10_queue_dequeue (q : MemQueue) (ctx : Bool) :
    (ctx = true → memDequeue q ctx = (.ctxErr, q)) ∧
    (∀ u q2, memDequeue q ctx = (.popped u, q2) →
      ctx = false ∧ q.stopped = false ∧ ¬(q.stopped = true ∧ q.pending = []) ∧
      q.pending.head? = some u ∧ q2 = { q with pending := q.pending.tail }) := by
  constructor
  · intro hc
    subst hc
    unfold memDequeue
    simp
  · intro u q2 h
    unfold memDequeue at h
    by_cases hb : q.pending.length = 0 ∧ ¬q.stopped = true ∧ ¬ctx = true
    · rw [if_pos hb] at h; cases h
    · rw [if_neg hb] at h
      by_cases hc : ctx = true
      · rw [if_pos hc] at h; cases h
      · rw [if_neg hc] at h
        by_cases hs : q.stopped = true
        · rw [if_pos hs] at h; cases h
        · rw [if_neg hs] at h
          cases hp : q.pending with
          | nil => rw [hp] at h; cases h
          | cons v rest =>
            rw [hp] at h
            cases h
            refine ⟨by simpa using hc, by simpa using hs, ?_, ?_, ?_⟩
            · intro hcontra; exact hs hcontra.1
            · simp [hp]
            · simp [hp]

/-- Witness for C10 at concrete inputs: with a cancelled context and a
pending URL, Dequeue returns the context error and pops nothing. -/
theorem c10_queue_dequeue_witness :
    memDequeue ⟨[⟨"http".data, none, "a".data, "/".data, [], false, [], []⟩], false, 1⟩ true
      = (.ctxErr, ⟨[⟨"http".data, none, "a".data, "/".data, [], false, [], []⟩], false, 1⟩) :=
  (c10_queue_dequeue ⟨[⟨"http".data, none, "a".data, "/".data, [], false, [], []⟩], false, 1⟩
      true).1 rfl

/-! ### Claim C6: non-cacheable requests pass through -/

/-- C6: when the strategy's cacheable predicate rejects a request,
`Cache.Do` hands the request unchanged to the underlying client, stores
nothing, and serves nothing from the cache storage. -/
theorem c6_cache_passthrough (strat : CacheStrategy)
    (client : HttpReq → Option HttpResp) (st : CacheStore) (req : HttpReq)
    (h : strat.cache req = false) :
    cacheDo strat client st req = (client req, st) := by
  unfold cacheDo
  simp [h]

/-- Witness for C6 at concrete inputs: a strategy refusing every request
makes `Cache.Do` return the client's answer with untouched storage. -/
theorem c6_cache_passthrough_witness :
    cacheDo ⟨fun _ => false, fun _ => false, fun _ => .fresh⟩ (fun _ => none) []
        ⟨"GET", "http://a/", []⟩
      = (none, []) :=
  c6_cache_passthrough ⟨fun _ => false, fun _ => false, fun _ => .fresh⟩
    (fun _ => none) [] ⟨"GET", "http://a/", []⟩ rfl

/-! ### Fetcher lemmas and claims C4, C5 -/

theorem minBackoff_pos (f : FetcherCfg) : 0 < f.minBackoff := by
  unfold FetcherCfg.minBackoff
  split
  · omega
  · decide

theorem maxAttempts_toNat_pos (f : FetcherCfg) : 1 ≤ f.maxAttempts.toNat := by
  unfold FetcherCfg.maxAttempts
  split
  · omega
  · decide

theorem fetchLoop_calls_le (f : FetcherCfg) (client : Nat → ClientResp) :
    ∀ remaining attempt lastErr,
      (fetchLoop f client attempt remaining lastErr).2 ≤ remaining := by
  intro remaining
  induction remaining with
  | zero => intro attempt lastErr; simp [fetchLoop]
  | succ r ih =>
    intro attempt lastErr
    simp only [fetchLoop]
    cases hcr : classifyFetch (client (attempt + 1)) with
    | ok sb => simp
    | error e =>
      simp only
      by_cases ht : isTemporaryF e = true
      · simp only [ht, if_true]
        cases hb : f.backoffDur (Int.ofNat (attempt + 1)) with
        | none => simp
        | some d =>
          simpa using Nat.succ_le_succ (ih (attempt + 1) (some e))
      · simp only [Bool.not_eq_true] at ht
        simp only [ht, Bool.false_eq_true, if_false]
        by_cases h404 : e = FErr.fetchErr 404
        · simp [h404]
        · simp [h404]

theorem fetchLoop_calls_pos (f : FetcherCfg) (client : Nat → ClientResp)
    (r attempt : Nat) (lastErr : Option FErr) :
    1 ≤ (fetchLoop f client attempt (r + 1) lastErr).2 := by
  simp only [fetchLoop]
  cases hcr : classifyFetch (client (attempt + 1)) with
  | ok sb => simp
  | error e =>
    simp only
    by_cases ht : isTemporaryF e = true
    · simp only [ht, if_true]
      cases hb : f.backoffDur (Int.ofNat (attempt + 1)) with
      | none => simp
      | some d => simp
    · simp only [Bool.not_eq_true] at ht
      simp only [ht, Bool.false_eq_true, if_false]
      by_cases h404 : e = FErr.fetchErr 404
      · simp [h404]
      · simp [h404]

/-- C4: with a floor below the ceiling, the retry delay for attempt `i`
is exactly `min(max_backoff, i² · min_backoff)`; the defaults are 50 ms,
1 s and 5 attempts; the delay is nondecreasing in the attempt number;
and no run of the retry loop calls the client more than `max_attempts`
times. -/
theorem c4_backoff_formula_monotone_and_attempt_bound (f : FetcherCfg)
    (i j : Nat) (client : Nat → ClientResp)
    (hcfg : f.minBackoff < f.maxBackoff) (hij : i ≤ j) :
    f.backoffDur (Int.ofNat i)
      = some (min f.maxBackoff (Int.ofNat i * Int.ofNat i * f.minBackoff)) ∧
    (f.backoffDur (Int.ofNat i)).getD 0 ≤ (f.backoffDur (Int.ofNat j)).getD 0 ∧
    (FetcherCfg.mk 0 0 0).minBackoff = 50000000 ∧
    (FetcherCfg.mk 0 0 0).maxBackoff = 1000000000 ∧
    (FetcherCfg.mk 0 0 0).maxAttempts = 5 ∧
    (fetchModel f client).2 ≤ f.maxAttempts.toNat := by
  have hformula : ∀ k : Nat, f.backoffDur (Int.ofNat k)
      = some (min f.maxBackoff (Int.ofNat k * Int.ofNat k * f.minBackoff)) := by
    intro k
    unfold FetcherCfg.backoffDur
    rw [if_neg (by omega)]
    congr 1
    rcases le_or_lt (Int.ofNat k * Int.ofNat k * f.minBackoff) f.maxBackoff with h | h
    · rw [if_neg (by omega), min_eq_right h]
    · rw [if_pos h, min_eq_left (le_of_lt h)]
  refine ⟨hformula i, ?_, rfl, rfl, rfl, ?_⟩
  · rw [hformula i, hformula j]
    simp only [Option.getD_some]
    apply min_le_min (le_refl f.maxBackoff)
    have hmn : (0:Int) ≤ f.minBackoff := le_of_lt (minBackoff_pos f)
    have hcast : (Int.ofNat i) ≤ Int.ofNat j := Int.ofNat_le.mpr hij
    have h0 : (0:Int) ≤ Int.ofNat i := Int.ofNat_nonneg i
    have hsq : Int.ofNat i * Int.ofNat i ≤ Int.ofNat j * Int.ofNat j :=
      mul_le_mul hcast hcast h0 (le_trans h0 hcast)
    exact mul_le_mul_of_nonneg_right hsq hmn
  · exact fetchLoop_calls_le f client f.maxAttempts.toNat 0 none

/-- Witness for C4 at concrete inputs: the default fetcher hammered with
503 responses makes at most five client calls. -/
theorem c4_backoff_witness :
    (fetchModel (FetcherCfg.mk 0 0 0) (fun _ => ClientResp.resp 503 [])).2
      ≤ (FetcherCfg.mk 0 0 0).maxAttempts.toNat :=
  (c4_backoff_formula_monotone_and_attempt_bound (FetcherCfg.mk 0 0 0) 2 3
      (fun _ => ClientResp.resp 503 []) (by decide) (by decide)).2.2.2.2.2

/-- C5: `Fetcher.Fetch` classifies responses by status: 404 yields a nil
page and nil error after one call; 503, 504 and 429 become a typed fetch
error whose `Temporary()` is true and are retried; any other status of
at least 400 is fatal after one call; statuses below 400 produce a page
wrapping the response body. -/
theorem c5_fetch_status_classification (f : FetcherCfg)
    (client : Nat → ClientResp) (s : Nat) (b : GoStr) :
    (client 1 = .resp 404 b → fetchModel f client = (.noPage, 1)) ∧
    ((s = 503 ∨ s = 504 ∨ s = 429) →
      classifyFetch (.resp s b) = .error (.fetchErr s) ∧
      isTemporaryF (.fetchErr s) = true) ∧
    ((s = 503 ∨ s = 504 ∨ s = 429) → client 1 = .resp s b →
      f.minBackoff < f.maxBackoff → 2 ≤ f.maxAttempts.toNat →
      2 ≤ (fetchModel f client).2) ∧
    (400 ≤ s → s ≠ 404 → fetchErrTemporary s = false → client 1 = .resp s b →
      fetchModel f client = (.fatal (.fetchErr s), 1)) ∧
    (s < 400 → client 1 = .resp s b → fetchModel f client = (.page s b, 1)) := by
  obtain ⟨r, hr⟩ : ∃ r, f.maxAttempts.toNat = r + 1 :=
    ⟨f.maxAttempts.toNat - 1, by have := maxAttempts_toNat_pos f; omega⟩
  refine ⟨?_, ?_, ?_, ?_, ?_⟩
  · intro hcl
    unfold fetchModel
    rw [hr]
    simp only [fetchLoop, Nat.zero_add, hcl]
    simp [classifyFetch, isTemporaryF, fetchErrTemporary]
  · rintro (hs | hs | hs) <;> subst hs <;>
      exact ⟨by simp [classifyFetch], by simp [isTemporaryF, fetchErrTemporary]⟩
  · intro hs hcl hcfg hge2
    unfold fetchModel
    rw [hr]
    have hr1 : 1 ≤ r := by omega
    obtain ⟨r2, hr2⟩ : ∃ r2, r = r2 + 1 := ⟨r - 1, by omega⟩
    simp only [fetchLoop, Nat.zero_add, hcl]
    have hclass : classifyFetch (ClientResp.resp s b) = .error (.fetchErr s) := by
      rcases hs with hs | hs | hs <;> subst hs <;> simp [classifyFetch]
    rw [hclass]
    have htemp : isTemporaryF (FErr.fetchErr s) = true := by
      rcases hs with hs | hs | hs <;> subst hs <;> simp [isTemporaryF, fetchErrTemporary]
    simp only [htemp, if_true]
    have hbd : ∃ d, f.backoffDur (Int.ofNat 1) = some d := by
      unfold FetcherCfg.backoffDur
      rw [if_neg (by omega)]
      exact ⟨_, rfl⟩
    obtain ⟨d, hd⟩ := hbd
    rw [hd]
    simp only
    rw [hr2]
    have := fetchLoop_calls_pos f client r2 1 (some (FErr.fetchErr s))
    omega
  · intro hge hne htemp hcl
    unfold fetchModel
    rw [hr]
    simp only [fetchLoop, Nat.zero_add, hcl]
    have hclass : classifyFetch (ClientResp.resp s b) = .error (.fetchErr s) := by
      simp [classifyFetch, hge]
    rw [hclass]
    have ht : isTemporaryF (FErr.fetchErr s) = false := by simp [isTemporaryF, htemp]
    simp only [ht, Bool.false_eq_true, if_false]
    have h404 : ¬ (FErr.fetchErr s = FErr.fetchErr 404) := by
      intro hcontra
      cases hcontra
      exact hne rfl
    simp [h404]
  · intro hlt hcl
    unfold fetchModel
    rw [hr]
    simp only [fetchLoop, Nat.zero_add, hcl]
    have hclass : classifyFetch (ClientResp.resp s b) = .ok (s, b) := by
      simp [classifyFetch]
      omega
    rw [hclass]

/-- Witness for C5 at concrete inputs: a client answering 404 makes the
fetch return the nil page with no error after a single call. -/
theorem c5_fetch_status_witness :
    fetchModel (FetcherCfg.mk 0 0 0) (fun _ => ClientResp.resp 404 [])
      = (.noPage, 1) :=
  (c5_fetch_status_classification (FetcherCfg.mk 0 0 0)
      (fun _ => ClientResp.resp 404 []) 404 []).1 rfl

/-! ### Robots cache lemmas and claim C9 -/

theorem lruGet_lruSet_self (lru : RobotsLRU) (host : String) (h : RHost) :
    lruGet (lruSet lru host h) host = some h := by
  simp [lruGet, lruSet]

/-- C9 counterexample: a host whose robots.txt fetch fails with a
network error does not get a permissive record; the lookup returns an
error, the cache is unchanged, and Allowed reports the error instead of
permitting the path. -/
theorem c9_robots_network_error_counterexample :
    robotsLookup (fun _ => RobotsFetch.netErr) [] "example.com" = (none, []) ∧
    robotsAllowed (fun _ => RobotsFetch.netErr) [] "example.com" "/a".data "antbot"
      = (none, []) :=
  ⟨rfl, rfl⟩

/-- C9 (amended): for every host whose robots.txt fetch returns a status
of at least 400, the cache stores the permissive record, after which
Allowed returns true for every path and agent and Wait sleeps for zero
time; a network failure instead propagates an error and stores
nothing. -/
theorem c9_robots_permissive_on_4xx (client : String → RobotsFetch)
    (lru : RobotsLRU) (host : String) (status : Nat) (parsed : Option RobotsData)
    (hmiss : lruGet lru host = none) (hresp : client host = .resp status parsed)
    (hstatus : 400 ≤ status) :
    robotsLookup client lru host = (some ⟨none⟩, lruSet lru host ⟨none⟩) ∧
    (∀ path ua, robotsAllowed client (lruSet lru host ⟨none⟩) host path ua
        = (some true, lruSet lru host ⟨none⟩)) ∧
    (∀ ua, robotsWaitDur client (lruSet lru host ⟨none⟩) host ua
        = (some 0, lruSet lru host ⟨none⟩)) ∧
    (∀ (client2 : String → RobotsFetch) (lru2 : RobotsLRU) (host2 : String),
        client2 host2 = .netErr →
        robotsLookup client2 lru2 host2 = (lruGet lru2 host2, lru2)) := by
  have hlookup : robotsLookup client lru host = (some ⟨none⟩, lruSet lru host ⟨none⟩) := by
    unfold robotsLookup
    rw [hmiss, hresp]
    simp only
    rw [if_pos hstatus]
  have hlookup2 : robotsLookup client (lruSet lru host ⟨none⟩) host
      = (some ⟨none⟩, lruSet lru host ⟨none⟩) := by
    unfold robotsLookup
    rw [lruGet_lruSet_self]
  refine ⟨hlookup, ?_, ?_, ?_⟩
  · intro path ua
    unfold robotsAllowed
    rw [hlookup2]
    simp [RHost.test]
  · intro ua
    unfold robotsWaitDur
    rw [hlookup2]
    simp [RHost.find]
  · intro client2 lru2 host2 hnet
    unfold robotsLookup
    cases hget : lruGet lru2 host2 with
    | some h => simp
    | none => rw [hnet]

/-- Witness for C9 at concrete inputs: after a 404 robots.txt fetch the
stored permissive record admits an arbitrary path for the default
agent. -/
theorem c9_robots_witness :
    robotsAllowed (fun _ => RobotsFetch.resp 404 none)
        (lruSet [] "example.com" ⟨none⟩) "example.com" "/a".data ""
      = (some true, lruSet [] "example.com" ⟨none⟩) :=
  ((c9_robots_permissive_on_4xx (fun _ => RobotsFetch.resp 404 none) []
      "example.com" 404 none rfl rfl (by omega)).2.1) "/a".data ""

/-! ### Header lemmas and claim C7 -/

theorem getH_setH_self (h : List (String × String)) (k v : String) :
    getH (setH h k v) k = v := by
  simp [getH, setH]

theorem find?_filter_keyne (t : List (String × String)) (k k2 : String)
    (hne : k2 ≠ k) :
    List.find? (fun kv => kv.1 = k2) (t.filter (fun kv => kv.1 ≠ k))
      = List.find? (fun kv => kv.1 = k2) t := by
  induction t with
  | nil => rfl
  | cons kv t ih =>
    by_cases hk : kv.1 = k
    · rw [List.filter_cons_of_neg (by simp [hk])]
      rw [List.find?_cons_of_neg _ (by simp [hk]; exact fun hc => hne hc.symm)]
      exact ih
    · rw [List.filter_cons_of_pos (by simp [hk])]
      by_cases hk2 : kv.1 = k2
      · rw [List.find?_cons_of_pos _ (by simp [hk2]),
          List.find?_cons_of_pos _ (by simp [hk2])]
      · rw [List.find?_cons_of_neg _ (by simp [hk2]),
          List.find?_cons_of_neg _ (by simp [hk2])]
        exact ih

theorem getH_setH_ne (h : List (String × String)) (k k2 v : String)
    (hne : k2 ≠ k) : getH (setH h k v) k2 = getH h k2 := by
  simp only [getH, setH]
  rw [List.find?_cons_of_neg _ (by simp; exact fun hc => hne hc.symm)]
  rw [find?_filter_keyne h k k2 hne]

theorem getH_mergeH_hop (a b : List (String × String)) :
    ∀ k ∈ hopByHop, getH (mergeH a b) k = getH a k := by
  intro k hk
  unfold mergeH
  induction b generalizing a with
  | nil => rfl
  | cons kv t ih =>
    simp only [List.foldl_cons]
    by_cases hh : kv.1 ∈ hopByHop
    · rw [if_pos hh]
      exact ih a
    · rw [if_neg hh]
      rw [ih (setH a kv.1 kv.2)]
      exact getH_setH_ne a kv.1 k kv.2 (fun hc => hh (hc ▸ hk))

/-- C7: on a stale hit the cache validates with a request carrying
`If-None-Match` / `If-Modified-Since` taken from the stored headers;
a 5xx answer returns the stored response when the request has the
`stale-if-error` directive and the new response otherwise; a 304 merges
the origin headers into the stored response without the hop-by-hop
headers, re-stores and returns it; a storable full response is stored
and returned. -/
theorem c7_cache_verify_validation (strat : CacheStrategy)
    (client : HttpReq → Option HttpResp) (key : String) (resp : HttpResp)
    (st : CacheStore) (newresp : HttpResp) :
    ((cacheVerify strat client key resp st).2.2 = validatingReq resp) ∧
    (getH resp.header "Etag" ≠ "" → getH resp.request.header "If-None-Match" = "" →
      getH (validatingReq resp).header "If-None-Match" = getH resp.header "Etag") ∧
    (getH resp.header "Last-Modified" ≠ "" →
      getH resp.request.header "If-Modified-Since" = "" →
      getH (validatingReq resp).header "If-Modified-Since"
        = getH resp.header "Last-Modified") ∧
    (client (validatingReq resp) = some newresp →
      500 ≤ newresp.status → newresp.status < 600 →
      hasDirective (directivesFrom (validatingReq resp).header)
          "stale-if-error".data = true →
      cacheVerify strat client key resp st = (.hit resp, st, validatingReq resp)) ∧
    (client (validatingReq resp) = some newresp →
      500 ≤ newresp.status → newresp.status < 600 →
      hasDirective (directivesFrom (validatingReq resp).header)
          "stale-if-error".data = false →
      cacheVerify strat client key resp st = (.hit newresp, st, validatingReq resp)) ∧
    (client (validatingReq resp) = some newresp → newresp.status = 304 →
      cacheVerify strat client key resp st =
        (.hit { resp with header := mergeH resp.header newresp.header },
         cstoreSet st key { resp with header := mergeH resp.header newresp.header },
         validatingReq resp) ∧
      (∀ k ∈ hopByHop, getH (mergeH resp.header newresp.header) k
          = getH resp.header k)) ∧
    (client (validatingReq resp) = some newresp →
      ¬(500 ≤ newresp.status ∧ newresp.status < 600) → newresp.status ≠ 304 →
      strat.store newresp = true →
      cacheVerify strat client key resp st
        = (.hit newresp, cstoreSet st key newresp, validatingReq resp)) := by
  refine ⟨?_, ?_, ?_, ?_, ?_, ?_, ?_⟩
  · unfold cacheVerify
    cases hcl : client (validatingReq resp) with
    | none => rfl
    | some nr =>
      dsimp only
      by_cases h5 : 500 ≤ nr.status ∧ nr.status < 600
      · rw [if_pos h5]
        by_cases hd : hasDirective (directivesFrom (validatingReq resp).header)
            "stale-if-error".data = true
        · rw [if_pos hd]
        · rw [if_neg hd]
      · rw [if_neg h5]
        by_cases h304 : nr.status = 304
        · rw [if_pos h304]
        · rw [if_neg h304]
          by_cases hs : strat.store nr = true
          · rw [if_pos hs]
          · rw [if_neg hs]
  · intro hetag hinm
    unfold validatingReq
    dsimp only
    rw [if_pos (⟨hetag, hinm⟩ :
      getH resp.header "Etag" ≠ "" ∧ getH resp.request.header "If-None-Match" = "")]
    dsimp only
    split
    · dsimp only
      rw [getH_setH_ne _ _ _ _ (by decide), getH_setH_self]
    · rw [getH_setH_self]
  · intro hlm hims
    unfold validatingReq
    dsimp only
    by_cases hE : getH resp.header "Etag" ≠ "" ∧ getH resp.request.header "If-None-Match" = ""
    · rw [if_pos hE]
      dsimp only
      rw [if_pos (⟨hlm, by rw [getH_setH_ne _ _ _ _ (by decide)]; exact hims⟩ :
        getH resp.header "Last-Modified" ≠ "" ∧
        getH (setH resp.request.header "If-None-Match" (getH resp.header "Etag"))
          "If-Modified-Since" = "")]
      dsimp only
      rw [getH_setH_self]
    · rw [if_neg hE]
      rw [if_pos (⟨hlm, hims⟩ :
        getH resp.header "Last-Modified" ≠ "" ∧
        getH resp.request.header "If-Modified-Since" = "")]
      dsimp only
      rw [getH_setH_self]
  · intro hcl h5a h5b hdir
    unfold cacheVerify
    rw [hcl]
    simp only
    rw [if_pos ⟨h5a, h5b⟩, if_pos hdir]
  · intro hcl h5a h5b hdir
    unfold cacheVerify
    rw [hcl]
    simp only
    rw [if_pos ⟨h5a, h5b⟩, if_neg (by simp [hdir])]
  · intro hcl h304
    refine ⟨?_, getH_mergeH_hop resp.header newresp.header⟩
    unfold cacheVerify
    rw [hcl]
    simp only
    rw [if_neg (by omega), if_pos h304]
  · intro hcl h5 h304 hstore
    unfold cacheVerify
    rw [hcl]
    simp only
    rw [if_neg h5, if_neg h304, if_pos hstore]

/-- Witness for C7 at concrete inputs: validating a stored response whose
origin now answers 304 returns the stored response with the origin's
non-hop-by-hop headers merged in and re-stores it. -/
theorem c7_cache_verify_witness :
    cacheVerify ⟨fun _ => true, fun _ => true, fun _ => .stale⟩
        (fun _ => some ⟨304, [("Age", "1")], [],
          ⟨"GET", "http://a/", []⟩⟩) "GET:http://a/"
        ⟨200, [], "x".data, ⟨"GET", "http://a/", []⟩⟩ []
      = (.hit ⟨200, [("Age", "1")], "x".data, ⟨"GET", "http://a/", []⟩⟩,
         [("GET:http://a/",
           ⟨200, [("Age", "1")], "x".data, ⟨"GET", "http://a/", []⟩⟩)],
         ⟨"GET", "http://a/", []⟩) :=
  ((c7_cache_verify_validation ⟨fun _ => true, fun _ => true, fun _ => .stale⟩
      (fun _ => some ⟨304, [("Age", "1")], [], ⟨"GET", "http://a/", []⟩⟩)
      "GET:http://a/" ⟨200, [], "x".data, ⟨"GET", "http://a/", []⟩⟩ []
      ⟨304, [("Age", "1")], [], ⟨"GET", "http://a/", []⟩⟩).2.2.2.2.2.1
    rfl rfl).1

/-! ### Deduper and engine lemmas, claim C1 -/

theorem dedupe_fold_spec (urls : List GoURL) :
    ∀ (ret0 : List GoURL) (seen0 : List GoStr),
      (∀ u ∈ ret0, urlString u ∈ seen0) →
      (∀ k ∈ seen0, k ∈ (urls.foldl
          (fun (acc : List GoURL × List GoStr) u =>
            if urlString u ∈ acc.2 then acc
            else (acc.1 ++ [u], urlString u :: acc.2)) (ret0, seen0)).2) ∧
      (∀ u ∈ (urls.foldl
          (fun (acc : List GoURL × List GoStr) u =>
            if urlString u ∈ acc.2 then acc
            else (acc.1 ++ [u], urlString u :: acc.2)) (ret0, seen0)).1,
        urlString u ∈ (urls.foldl
          (fun (acc : List GoURL × List GoStr) u =>
            if urlString u ∈ acc.2 then acc
            else (acc.1 ++ [u], urlString u :: acc.2)) (ret0, seen0)).2) ∧
      (∀ u ∈ (urls.foldl
          (fun (acc : List GoURL × List GoStr) u =>
            if urlString u ∈ acc.2 then acc
            else (acc.1 ++ [u], urlString u :: acc.2)) (ret0, seen0)).1,
        u ∈ ret0 ∨ (urlString u ∉ seen0 ∧ u ∈ urls)) ∧
      ((ret0.map urlString).Nodup → ((urls.foldl
          (fun (acc : List GoURL × List GoStr) u =>
            if urlString u ∈ acc.2 then acc
            else (acc.1 ++ [u], urlString u :: acc.2)) (ret0, seen0)).1.map
          urlString).Nodup) := by
  induction urls with
  | nil =>
    intro ret0 seen0 hsub
    exact ⟨fun k hk => hk, hsub, fun u hu => .inl hu, id⟩
  | cons v vs ih =>
    intro ret0 seen0 hsub
    simp only [List.foldl_cons]
    by_cases hv : urlString v ∈ seen0
    · rw [if_pos hv]
      obtain ⟨h1, h2, h3, h4⟩ := ih ret0 seen0 hsub
      refine ⟨h1, h2, ?_, h4⟩
      intro u hu
      rcases h3 u hu with hl | ⟨hr1, hr2⟩
      · exact .inl hl
      · exact .inr ⟨hr1, List.mem_cons_of_mem v hr2⟩
    · rw [if_neg hv]
      have hsub2 : ∀ u ∈ ret0 ++ [v], urlString u ∈ urlString v :: seen0 := by
        intro u hu
        rcases List.mem_append.mp hu with h | h
        · exact List.mem_cons_of_mem _ (hsub u h)
        · simp only [List.mem_singleton] at h
          subst h
          exact List.mem_cons_self _ _
      obtain ⟨h1, h2, h3, h4⟩ := ih (ret0 ++ [v]) (urlString v :: seen0) hsub2
      refine ⟨fun k hk => h1 k (List.mem_cons_of_mem _ hk), h2, ?_, ?_⟩
      · intro u hu
        rcases h3 u hu with hl | ⟨hr1, hr2⟩
        · rcases List.mem_append.mp hl with h | h
          · exact .inl h
          · simp only [List.mem_singleton] at h
            subst h
            exact .inr ⟨hv, List.mem_cons_self _ _⟩
        · refine .inr ⟨fun hc => hr1 (List.mem_cons_of_mem _ hc),
            List.mem_cons_of_mem _ hr2⟩
      · intro hnd
        apply h4
        rw [List.map_append]
        refine List.Nodup.append hnd (by simp) ?_
        intro a ha hb
        simp only [List.map_cons, List.map_nil, List.mem_singleton] at hb
        subst hb
        obtain ⟨u, hu, hkey⟩ := List.mem_map.mp ha
        exact hv (hkey ▸ hsub u hu)

theorem dedupeMap_spec (seen : List GoStr) (urls : List GoURL) :
    (∀ k ∈ seen, k ∈ (dedupeMap seen urls).2) ∧
    (∀ u ∈ (dedupeMap seen urls).1,
      urlString u ∈ (dedupeMap seen urls).2 ∧ urlString u ∉ seen ∧ u ∈ urls) ∧
    ((dedupeMap seen urls).1.map urlString).Nodup := by
  obtain ⟨h1, h2, h3, h4⟩ := dedupe_fold_spec urls [] seen (by simp)
  refine ⟨h1, ?_, h4 (by simp)⟩
  intro u hu
  rcases h3 u hu with hl | ⟨hr1, hr2⟩
  · simp at hl
  · exact ⟨h2 u hu, hr1, hr2⟩

theorem engineStep_preserves (matcher : GoURL → Bool) (s s2 : EngineState)
    (hstep : EngineStep matcher s s2)
    (hnd : ((s.scraped ++ s.pending).map urlString).Nodup)
    (hmem : ∀ u ∈ s.scraped ++ s.pending, matcher u = true ∧ urlString u ∈ s.seen) :
    ((s2.scraped ++ s2.pending).map urlString).Nodup ∧
    (∀ u ∈ s2.scraped ++ s2.pending, matcher u = true ∧ urlString u ∈ s2.seen) := by
  cases hstep with
  | enqueue batch s =>
    unfold engineEnqueue
    simp only
    obtain ⟨hmono, hnew, hndnew⟩ :=
      dedupeMap_spec s.seen ((batch.map normalizeURL).filter matcher)
    constructor
    · rw [← List.append_assoc, List.map_append]
      refine List.Nodup.append hnd hndnew ?_
      intro a ha hb
      obtain ⟨u, hu, hkey⟩ := List.mem_map.mp ha
      obtain ⟨v, hv, hkey2⟩ := List.mem_map.mp hb
      obtain ⟨_, hseen⟩ := hmem u hu
      obtain ⟨_, hnot, _⟩ := hnew v hv
      exact hnot (hkey2 ▸ hkey ▸ hseen)
    · intro u hu
      rw [← List.append_assoc] at hu
      rcases List.mem_append.mp hu with hold | hnewm
      · obtain ⟨hm, hs⟩ := hmem u hold
        exact ⟨hm, hmono _ hs⟩
      · obtain ⟨hin, _, hmem2⟩ := hnew u hnewm
        exact ⟨List.of_mem_filter hmem2, hin⟩
  | processScrape u rest s hp =>
    have hre : (s.scraped ++ [u]) ++ rest = s.scraped ++ s.pending := by
      rw [hp]; simp
    constructor
    · simpa only [hre] using hnd
    · intro v hv
      rw [hre] at hv
      exact hmem v hv
  | processSkip u rest s hp =>
    have hsub : (s.scraped ++ rest).Sublist (s.scraped ++ s.pending) := by
      rw [hp]
      exact (List.sublist_cons_self u rest).append_left s.scraped
    constructor
    · exact List.Nodup.sublist (List.Sublist.map urlString hsub) hnd
    · intro v hv
      exact hmem v (hsub.subset hv)

/-- C1: in every reachable engine state the URLs scrape has been invoked
on are pairwise distinct as normalized URL strings, every scraped or
pending URL passed the matcher and was recorded by the deduper, and a
URL once returned by Dedupe is never returned by any later Dedupe call
over a grown visited set. -/
theorem c1_at_most_once_visit (matcher : GoURL → Bool) (s : EngineState)
    (h : EngineReachable matcher s) :
    ((s.scraped ++ s.pending).map urlString).Nodup ∧
    (∀ u ∈ s.scraped ++ s.pending, matcher u = true ∧ urlString u ∈ s.seen) ∧
    (∀ (seen : List GoStr) (urls : List GoURL) (u : GoURL),
      u ∈ (dedupeMap seen urls).1 →
      urlString u ∈ (dedupeMap seen urls).2 ∧ urlString u ∉ seen ∧
      ∀ (seen2 : List GoStr) (urls2 : List GoURL),
        (∀ k ∈ (dedupeMap seen urls).2, k ∈ seen2) →
        ∀ v ∈ (dedupeMap seen2 urls2).1, urlString v ≠ urlString u) := by
  have hmain : ((s.scraped ++ s.pending).map urlString).Nodup ∧
      (∀ u ∈ s.scraped ++ s.pending, matcher u = true ∧ urlString u ∈ s.seen) := by
    induction h with
    | refl => exact ⟨by simp, by simp⟩
    | tail hsteps hstep ih =>
      exact engineStep_preserves matcher _ _ hstep ih.1 ih.2
  refine ⟨hmain.1, hmain.2, ?_⟩
  intro seen urls u hu
  obtain ⟨_, hspec, _⟩ := dedupeMap_spec seen urls
  obtain ⟨hin, hnot, _⟩ := hspec u hu
  refine ⟨hin, hnot, ?_⟩
  intro seen2 urls2 hgrow v hv heq
  obtain ⟨_, hspec2, _⟩ := dedupeMap_spec seen2 urls2
  obtain ⟨_, hnot2, _⟩ := hspec2 v hv
  exact hnot2 (heq ▸ hgrow _ hin)

/-- Witness for C1 at concrete inputs: a URL admitted by Dedupe into an
empty visited set is recorded in the resulting set. -/
theorem c1_at_most_once_visit_witness :
    urlString ⟨"http".data, none, "a".data, "/".data, [], false, [], []⟩
      ∈ (dedupeMap []
          [⟨"http".data, none, "a".data, "/".data, [], false, [], []⟩]).2 :=
  ((c1_at_most_once_visit (fun _ => true) ⟨[], [], []⟩
      Relation.ReflTransGen.refl).2.2 []
    [⟨"http".data, none, "a".data, "/".data, [], false, [], []⟩]
    ⟨"http".data, none, "a".data, "/".data, [], false, [], []⟩
    (by decide)).1

/-! ### Character facts for the URL round trip -/

theorem char_toNat_ofNat {n : Nat} (h : n < 0xd800) : (Char.ofNat n).toNat = n := by
  have hv : n.isValidChar := Or.inl h
  unfold Char.ofNat
  rw [dif_pos hv]
  unfold Char.ofNatAux Char.toNat
  simp [UInt32.toNat, BitVec.toNat_ofNatLt]

theorem char_eq_of_toNat {c d : Char} (h : c.toNat = d.toNat) : c = d := by
  apply Char.eq_of_val_eq
  exact UInt32.toNat.inj h

theorem toLowerChar_toNat (c : Char) :
    (toLowerChar c).toNat
      = if 65 ≤ c.toNat ∧ c.toNat ≤ 90 then c.toNat + 32 else c.toNat := by
  unfold toLowerChar
  split
  · next h => exact char_toNat_ofNat (by omega)
  · rfl

theorem toLowerChar_eq_self (c : Char) (h : ¬(65 ≤ c.toNat ∧ c.toNat ≤ 90)) :
    toLowerChar c = c := by
  unfold toLowerChar
  rw [if_neg h]

theorem toLowerChar_idem (c : Char) :
    toLowerChar (toLowerChar c) = toLowerChar c := by
  by_cases h : 65 ≤ c.toNat ∧ c.toNat ≤ 90
  · apply toLowerChar_eq_self
    rw [toLowerChar_toNat, if_pos h]
    omega
  · simp only [toLowerChar_eq_self c h]

theorem toLower_idem (s : GoStr) : toLower (toLower s) = toLower s := by
  unfold toLower
  rw [List.map_map]
  exact List.map_congr_left (fun c _ => toLowerChar_idem c)

theorem mem_toLower_lowered (s : GoStr) (c : Char) (h : c ∈ toLower s) :
    toLowerChar c = c := by
  obtain ⟨d, _, hd⟩ := List.mem_map.mp h
  rw [← hd]
  exact toLowerChar_idem d

theorem isAlnum_bounds (c : Char) (h : isAlnum c = true) :
    47 < c.toNat ∧ c.toNat < 123 := by
  simp only [isAlnum, isAlpha, isDigit, Bool.or_eq_true, decide_eq_true_eq] at h
  omega

theorem notCtl_of_bounds (c : Char) (h1 : 31 < c.toNat) (h2 : c.toNat < 127) :
    isCtlOrHigh c = false := by
  simp only [isCtlOrHigh, Bool.or_eq_false_iff, decide_eq_false_iff_not]
  omega

theorem char_ne_of_toNat_ne {c d : Char} (h : c.toNat ≠ d.toNat) : c ≠ d :=
  fun hc => h (hc ▸ rfl)

theorem isAlnum_not_ctl (c : Char) (h : isAlnum c = true) : isCtlOrHigh c = false := by
  obtain ⟨h1, h2⟩ := isAlnum_bounds c h
  exact notCtl_of_bounds c (by omega) (by omega)

theorem validSchemeChar_bounds (c : Char) (h : validSchemeChar c = true) :
    42 < c.toNat ∧ c.toNat < 123 := by
  simp only [validSchemeChar, Bool.or_eq_true, decide_eq_true_eq] at h
  rcases h with ((h | h) | h) | h
  · have := isAlnum_bounds c h
    omega
  · subst h; decide
  · subst h; decide
  · subst h; decide

theorem hostChar_bounds (c : Char)
    (h : (isAlnum c || c = '.' || c = '-') = true) :
    44 < c.toNat ∧ c.toNat < 123 := by
  simp only [Bool.or_eq_true, decide_eq_true_eq] at h
  rcases h with (h | h) | h
  · exact ⟨by have := isAlnum_bounds c h; omega, (isAlnum_bounds c h).2⟩
  · subst h; decide
  · subst h; decide

theorem hexUpper_alnum : ∀ n : Fin 16, isAlnum (hexUpper n.val) = true := by decide

theorem shouldEscapePath_false_bounds (c : Char)
    (h : shouldEscapePath c = false) : 32 < c.toNat ∧ c.toNat < 127 := by
  unfold shouldEscapePath at h
  split at h
  · next ha => have := isAlnum_bounds c ha; omega
  · split at h
    · next hb =>
      rcases hb with hb | hb | hb | hb <;> (subst hb; decide)
    · split at h
      · next hb =>
        rcases hb with hb | hb | hb | hb | hb | hb | hb | hb | hb | hb <;>
          subst hb <;> decide
      · cases h

theorem shouldEscapePath_false_ne (c : Char) (h : shouldEscapePath c = false)
    (lit : Char) (hlit : shouldEscapePath lit = true) : c ≠ lit := by
  intro hc
  subst hc
  rw [h] at hlit
  cases hlit

/-! ### Percent-encoding round trip -/

theorem hexVal_hexUpper : ∀ n : Fin 16, hexVal (hexUpper n.val) = some n.val := by
  decide

theorem char_ofNat_toNat_of_lt {c : Char} (h : c.toNat < 256) :
    Char.ofNat c.toNat = c :=
  char_eq_of_toNat (char_toNat_ofNat (by omega))

theorem unescapePath_cons_not_pct (c : Char) (t : GoStr) (hc : c ≠ '%') :
    unescapePath (c :: t) = (unescapePath t).map (c :: ·) := by
  conv_lhs => rw [unescapePath.eq_def]
  dsimp only
  rw [if_neg hc]

theorem unescapePath_pct (h1 h2 : Char) (t : GoStr) (a b : Nat)
    (hv1 : hexVal h1 = some a) (hv2 : hexVal h2 = some b) :
    unescapePath ('%' :: h1 :: h2 :: t)
      = (unescapePath t).map (Char.ofNat (16 * a + b) :: ·) := by
  conv_lhs => rw [unescapePath.eq_def]
  dsimp only
  rw [if_pos rfl, hv1, hv2]

theorem unescapePath_pct_none (h1 h2 : Char) (t : GoStr)
    (h : ∀ a b, ¬(hexVal h1 = some a ∧ hexVal h2 = some b)) :
    unescapePath ('%' :: h1 :: h2 :: t) = none := by
  conv_lhs => rw [unescapePath.eq_def]
  dsimp only
  rw [if_pos rfl]
  cases hv1 : hexVal h1 with
  | none =>
    cases hv2 : hexVal h2 with
    | none => rfl
    | some b => rfl
  | some a =>
    cases hv2 : hexVal h2 with
    | none => rfl
    | some b => exact absurd ⟨hv1, hv2⟩ (h a b)

theorem unescapePath_pct_nil : unescapePath ['%'] = none := rfl

theorem unescapePath_pct_one (x : Char) : unescapePath ['%', x] = none := by
  conv_lhs => rw [unescapePath.eq_def]
  dsimp only
  rw [if_pos rfl]

theorem unescapePath_escapeChar (c : Char) (t : GoStr) (h : c.toNat < 256) :
    unescapePath (escapeChar shouldEscapePath c ++ t)
      = (unescapePath t).map (c :: ·) := by
  unfold escapeChar
  by_cases hesc : shouldEscapePath c = true
  · rw [if_pos hesc]
    show unescapePath ('%' :: hexUpper (c.toNat / 16) :: hexUpper (c.toNat % 16) :: t) = _
    have hhi : hexVal (hexUpper (c.toNat / 16)) = some (c.toNat / 16) :=
      hexVal_hexUpper ⟨c.toNat / 16, by omega⟩
    have hlo : hexVal (hexUpper (c.toNat % 16)) = some (c.toNat % 16) :=
      hexVal_hexUpper ⟨c.toNat % 16, by omega⟩
    have hc : Char.ofNat (16 * (c.toNat / 16) + c.toNat % 16) = c := by
      rw [Nat.div_add_mod]
      exact char_ofNat_toNat_of_lt h
    rw [unescapePath_pct _ _ _ _ _ hhi hlo]
    simp only [hc]
  · rw [if_neg hesc]
    have hne : c ≠ '%' := by
      intro hcp
      subst hcp
      exact hesc (by decide)
    show unescapePath (c :: t) = _
    exact unescapePath_cons_not_pct c t hne

theorem unescapePath_escapePath (p : GoStr) (h : ∀ c ∈ p, c.toNat < 256) :
    unescapePath (escapePath p) = some p := by
  induction p with
  | nil => rfl
  | cons c t ih =>
    unfold escapePath
    rw [List.flatMap_cons]
    rw [unescapePath_escapeChar c _ (h c (List.mem_cons_self c t))]
    unfold escapePath at ih
    rw [ih (fun d hd => h d (List.mem_cons_of_mem c hd))]
    rfl

theorem unescapePath_nil_of_some_nil (t : GoStr) (h : unescapePath t = some []) :
    t = [] := by
  cases t with
  | nil => rfl
  | cons c rest =>
    exfalso
    by_cases hc : c = '%'
    · subst hc
      cases rest with
      | nil => rw [unescapePath_pct_nil] at h; cases h
      | cons h1 rest1 =>
        cases rest1 with
        | nil => rw [unescapePath_pct_one] at h; cases h
        | cons h2 rest2 =>
          cases hv1 : hexVal h1 with
          | none =>
            rw [unescapePath_pct_none h1 h2 rest2
              (fun a b hab => by rw [hv1] at hab; cases hab.1)] at h
            cases h
          | some a =>
            cases hv2 : hexVal h2 with
            | none =>
              rw [unescapePath_pct_none h1 h2 rest2
                (fun a b hab => by rw [hv2] at hab; cases hab.2)] at h
              cases h
            | some b =>
              rw [unescapePath_pct h1 h2 rest2 a b hv1 hv2] at h
              cases hu : unescapePath rest2 <;> rw [hu] at h <;> simp at h
    · rw [unescapePath_cons_not_pct c rest hc] at h
      cases hu : unescapePath rest <;> rw [hu] at h <;> simp at h

theorem hexVal_lt {h : Char} {a : Nat} (hv : hexVal h = some a) : a < 16 := by
  unfold hexVal at hv
  split at hv
  · cases hv; omega
  · split at hv
    · cases hv; omega
    · split at hv
      · cases hv; omega
      · cases hv

theorem not_ctl_lt {c : Char} (h : isCtlOrHigh c = false) : c.toNat < 127 := by
  simp only [isCtlOrHigh, Bool.or_eq_false_iff, decide_eq_false_iff_not] at h
  omega

theorem unescapePath_chars_lt (t : GoStr) :
    ∀ d, unescapePath t = some d → (∀ c ∈ t, isCtlOrHigh c = false) →
      ∀ c ∈ d, c.toNat < 256 := by
  induction t using unescapePath.induct with
  | case1 =>
    intro d hd _ c hc
    cases hd
    cases hc
  | case2 h1 h2 rest2 a b hvb hva ih =>
    intro d hd hctl e he
    rw [unescapePath_pct h1 h2 rest2 a b hva hvb] at hd
    cases hu : unescapePath rest2 with
    | none => rw [hu] at hd; cases hd
    | some dd =>
      rw [hu] at hd
      simp only [Option.map_some', Option.some.injEq] at hd
      subst hd
      rcases List.mem_cons.mp he with hee | hee
      · subst hee
        have ha := hexVal_lt hva
        have hb := hexVal_lt hvb
        rw [char_toNat_ofNat (by omega)]
        omega
      · refine ih dd hu (fun c hc => hctl c ?_) e hee
        exact List.mem_cons_of_mem _ (List.mem_cons_of_mem _ (List.mem_cons_of_mem _ hc))
  | case3 h1 h2 rest2 hfail =>
    intro d hd hctl e he
    exfalso
    rw [unescapePath_pct_none h1 h2 rest2
      (fun a b hab => hfail a b hab.1 hab.2)] at hd
    cases hd
  | case4 rest hshape =>
    intro d hd hctl e he
    exfalso
    cases rest with
    | nil => rw [unescapePath_pct_nil] at hd; cases hd
    | cons x xs =>
      cases xs with
      | nil => rw [unescapePath_pct_one] at hd; cases hd
      | cons y ys => exact hshape x y ys rfl
  | case5 c rest hc ih =>
    intro d hd hctl e he
    rw [unescapePath_cons_not_pct c rest hc] at hd
    cases hu : unescapePath rest with
    | none => rw [hu] at hd; cases hd
    | some dd =>
      rw [hu] at hd
      simp only [Option.map_some', Option.some.injEq] at hd
      subst hd
      rcases List.mem_cons.mp he with hee | hee
      · subst hee
        have := not_ctl_lt (hctl e (List.mem_cons_self e rest))
        omega
      · exact ih dd hu (fun x hx => hctl x (List.mem_cons_of_mem c hx)) e hee

/-! ### Escape output shapes and class preservation -/

theorem ne_of_pred_ne {p : Char → Bool} {c l : Char} (hc : p c = true)
    (hl : p l = false) : c ≠ l := by
  intro h
  subst h
  rw [hc] at hl
  cases hl

theorem escapeChar_shape (pred : Char → Bool) (c : Char) :
    (pred c = false ∧ escapeChar pred c = [c]) ∨
    (pred c = true ∧
      escapeChar pred c = ['%', hexUpper (c.toNat / 16), hexUpper (c.toNat % 16)]) := by
  unfold escapeChar
  by_cases h : pred c = true
  · right
    exact ⟨h, by rw [if_pos h]⟩
  · left
    rw [if_neg h]
    exact ⟨by simpa using h, rfl⟩

theorem escapeChar_ne_nil (pred : Char → Bool) (c : Char) :
    escapeChar pred c ≠ [] := by
  rcases escapeChar_shape pred c with ⟨_, h⟩ | ⟨_, h⟩ <;> simp [h]

theorem escapePath_eq_nil (p : GoStr) (h : escapePath p = []) : p = [] := by
  cases p with
  | nil => rfl
  | cons c t =>
    exfalso
    unfold escapePath at h
    rw [List.flatMap_cons] at h
    exact escapeChar_ne_nil shouldEscapePath c (List.append_eq_nil.mp h).1

theorem mem_escapePath (p : GoStr) (hlt : ∀ c ∈ p, c.toNat < 256) (d : Char)
    (hd : d ∈ escapePath p) :
    (shouldEscapePath d = false ∧ d ∈ p) ∨ d = '%' ∨ isAlnum d = true := by
  obtain ⟨c, hc, hdc⟩ := List.mem_flatMap.mp hd
  rcases escapeChar_shape shouldEscapePath c with ⟨hf, h⟩ | ⟨_, h⟩
  · rw [h] at hdc
    simp only [List.mem_singleton] at hdc
    subst hdc
    exact .inl ⟨hf, hc⟩
  · rw [h] at hdc
    have hlt2 := hlt c hc
    rcases List.mem_cons.mp hdc with hh | hdc2
    · exact .inr (.inl hh)
    · rcases List.mem_cons.mp hdc2 with hh | hdc3
      · subst hh
        exact .inr (.inr (hexUpper_alnum ⟨c.toNat / 16, by omega⟩))
      · rcases List.mem_cons.mp hdc3 with hh | hdc4
        · subst hh
          exact .inr (.inr (hexUpper_alnum ⟨c.toNat % 16, by omega⟩))
        · cases hdc4

theorem escapePath_head_not_slash (p : GoStr) (hp : p.head? ≠ some '/') :
    (escapePath p).head? ≠ some '/' := by
  cases p with
  | nil => simp [escapePath]
  | cons c t =>
    unfold escapePath
    rw [List.flatMap_cons]
    simp only [List.head?_cons] at hp
    rcases escapeChar_shape shouldEscapePath c with ⟨_, h⟩ | ⟨_, h⟩ <;> rw [h]
    · simpa using fun hc => hp (by rw [hc])
    · simp

theorem escapeUser_alnum (us : GoStr) (h : validUser us = true) :
    escapeUser us = us := by
  unfold escapeUser
  unfold validUser at h
  rw [List.all_eq_true] at h
  induction us with
  | nil => rfl
  | cons c t ih =>
    rw [List.flatMap_cons]
    have hc : isAlnum c = true := by simpa using h c (List.mem_cons_self c t)
    have hne : shouldEscapeUser c = false := by
      unfold shouldEscapeUser
      rw [if_pos hc]
    unfold escapeChar
    rw [hne]
    simp only [Bool.false_eq_true, if_false, List.singleton_append, List.cons.injEq,
      true_and]
    exact ih (fun d hd => h d (List.mem_cons_of_mem c hd))

/-- The character classes a valid host is made of. -/
def hostCharProp (c : Char) : Prop :=
  isAlnum c = true ∨ c = '.' ∨ c = '-' ∨ c = ':' ∨ isDigit c = true

theorem validHost_chars (s : GoStr) (h : validHost s = true) :
    ∀ c ∈ s, hostCharProp c := by
  unfold validHost at h
  simp only [Bool.and_eq_true, Bool.or_eq_true, List.all_eq_true,
    decide_eq_true_eq, List.isEmpty_iff] at h
  obtain ⟨⟨hne, hname⟩, hport⟩ := h
  intro c hc
  rw [← List.takeWhile_append_dropWhile (p := fun c => decide (c ≠ ':')) (l := s)] at hc
  rcases List.mem_append.mp hc with hmem | hmem
  · have := hname c hmem
    simp only [Bool.or_eq_true, decide_eq_true_eq] at this
    rcases this with (ha | hb) | hb
    · exact .inl ha
    · exact .inr (.inl hb)
    · exact .inr (.inr (.inl hb))
  · rcases hport with hnil | ⟨hhead, hdigs⟩
    · rw [hnil] at hmem
      cases hmem
    · cases hd : s.dropWhile (fun c => decide (c ≠ ':')) with
      | nil => rw [hd] at hmem; cases hmem
      | cons x xs =>
        rw [hd] at hmem hhead hdigs
        simp only [List.head?_cons, Option.some.injEq] at hhead
        subst hhead
        rcases List.mem_cons.mp hmem with hx | hx
        · exact .inr (.inr (.inr (.inl hx)))
        · exact .inr (.inr (.inr (.inr (hdigs c hx))))

/-! ### Lowercasing preserves the scheme and host grammars -/

theorem isAlpha_toLowerChar (c : Char) (h : isAlpha c = true) :
    isAlpha (toLowerChar c) = true := by
  simp only [isAlpha, decide_eq_true_eq] at h ⊢
  rw [toLowerChar_toNat]
  split <;> omega

theorem isAlnum_toLowerChar (c : Char) (h : isAlnum c = true) :
    isAlnum (toLowerChar c) = true := by
  simp only [isAlnum, isAlpha, isDigit, Bool.or_eq_true, decide_eq_true_eq] at h ⊢
  rw [toLowerChar_toNat]
  split <;> omega

theorem toLowerChar_eq_of_notupper {c l : Char} (_hl : ¬(65 ≤ l.toNat ∧ l.toNat ≤ 90))
    (h : toLowerChar c = l) : c = l ∨ (65 ≤ c.toNat ∧ c.toNat ≤ 90) := by
  by_cases hc : 65 ≤ c.toNat ∧ c.toNat ≤ 90
  · exact .inr hc
  · rw [toLowerChar_eq_self c hc] at h
    exact .inl h

theorem validSchemeChar_toLowerChar (c : Char) (h : validSchemeChar c = true) :
    validSchemeChar (toLowerChar c) = true := by
  simp only [validSchemeChar, Bool.or_eq_true, decide_eq_true_eq] at h ⊢
  rcases h with ((ha | hb) | hb) | hb
  · exact .inl (.inl (.inl (isAlnum_toLowerChar c ha)))
  · subst hb; decide
  · subst hb; decide
  · subst hb; decide

theorem validScheme_toLower (s : GoStr) (h : validScheme s = true) :
    validScheme (toLower s) = true := by
  cases s with
  | nil => cases h
  | cons c t =>
    have hmap : toLower (c :: t) = toLowerChar c :: toLower t := rfl
    rw [hmap]
    unfold validScheme at h ⊢
    simp only [Bool.and_eq_true, List.all_eq_true] at h ⊢
    refine ⟨isAlpha_toLowerChar c h.1, ?_⟩
    intro d hd
    unfold toLower at hd
    obtain ⟨e, he, hde⟩ := List.mem_map.mp hd
    rw [← hde]
    exact validSchemeChar_toLowerChar e (h.2 e he)

theorem toLower_of_lowered (s : GoStr) (h : ∀ c ∈ s, toLowerChar c = c) :
    toLower s = s := by
  unfold toLower
  rw [List.map_congr_left h]
  simp

theorem toLowerChar_colon_iff (c : Char) : (toLowerChar c = ':') ↔ (c = ':') := by
  constructor
  · intro h
    rcases toLowerChar_eq_of_notupper (l := ':') (by decide) h with h2 | h2
    · exact h2
    · exfalso
      have h3 : (toLowerChar c).toNat = 58 := by rw [h]; rfl
      rw [toLowerChar_toNat, if_pos h2] at h3
      omega
  · intro h
    subst h
    rfl

theorem takeWhile_toLower_colon (s : GoStr) :
    (toLower s).takeWhile (fun c => decide (c ≠ ':'))
      = toLower (s.takeWhile (fun c => decide (c ≠ ':'))) ∧
    (toLower s).dropWhile (fun c => decide (c ≠ ':'))
      = toLower (s.dropWhile (fun c => decide (c ≠ ':'))) := by
  induction s with
  | nil => exact ⟨rfl, rfl⟩
  | cons c t ih =>
    unfold toLower
    rw [List.map_cons]
    by_cases hc : c = ':'
    · subst hc
      rw [List.takeWhile_cons_of_neg (by decide), List.dropWhile_cons_of_neg (by decide),
        List.takeWhile_cons_of_neg (by decide), List.dropWhile_cons_of_neg (by decide)]
      exact ⟨rfl, rfl⟩
    · have hlc : ¬ toLowerChar c = ':' := fun hcl => hc ((toLowerChar_colon_iff c).mp hcl)
      rw [List.takeWhile_cons_of_pos (by simpa using hlc),
        List.dropWhile_cons_of_pos (by simpa using hlc),
        List.takeWhile_cons_of_pos (by simpa using hc),
        List.dropWhile_cons_of_pos (by simpa using hc)]
      unfold toLower at ih
      rw [List.map_cons, ih.1, ih.2]
      exact ⟨rfl, rfl⟩

theorem validHost_toLower (s : GoStr) (h : validHost s = true) :
    validHost (toLower s) = true := by
  unfold validHost at h ⊢
  simp only [Bool.and_eq_true, Bool.or_eq_true, List.all_eq_true, decide_eq_true_eq,
    List.isEmpty_iff] at h ⊢
  obtain ⟨⟨hne, hname⟩, hport⟩ := h
  obtain ⟨htake, hdrop⟩ := takeWhile_toLower_colon s
  refine ⟨⟨?_, ?_⟩, ?_⟩
  · rw [htake]
    intro hcontra
    apply hne
    unfold toLower at hcontra
    exact List.map_eq_nil_iff.mp hcontra
  · intro c hc
    rw [htake] at hc
    obtain ⟨d, hd, hdc⟩ := List.mem_map.mp hc
    have := hname d hd
    simp only [Bool.or_eq_true, decide_eq_true_eq] at this
    rw [← hdc]
    rcases this with (ha | hb) | hb
    · exact .inl (.inl (isAlnum_toLowerChar d ha))
    · subst hb; decide
    · subst hb; decide
  · rw [hdrop]
    rcases hport with hnil | ⟨hhead, hdigs⟩
    · left
      rw [hnil]
      rfl
    · right
      cases hd : s.dropWhile (fun c => decide (c ≠ ':')) with
      | nil => rw [hd] at hhead; cases hhead
      | cons x xs =>
        rw [hd] at hhead hdigs
        simp only [List.head?_cons, Option.some.injEq] at hhead
        subst hhead
        unfold toLower
        rw [List.map_cons]
        constructor
        · simp [show toLowerChar ':' = ':' from by decide]
        · intro d hd2
          obtain ⟨e, he, hde⟩ := List.mem_map.mp hd2
          have := hdigs e he
          simp only [isDigit, decide_eq_true_eq] at this ⊢
          rw [← hde, toLowerChar_toNat]
          split <;> omega

/-! ### Host normalization facts -/

theorem validHost_takeWhile (s : GoStr) (h : validHost s = true) :
    validHost (s.takeWhile (fun c => decide (c ≠ ':'))) = true := by
  unfold validHost at h ⊢
  simp only [Bool.and_eq_true, Bool.or_eq_true, List.all_eq_true, decide_eq_true_eq,
    List.isEmpty_iff] at h ⊢
  obtain ⟨⟨hne, hname⟩, _⟩ := h
  have hself : (s.takeWhile (fun c => decide (c ≠ ':'))).takeWhile
      (fun c => decide (c ≠ ':')) = s.takeWhile (fun c => decide (c ≠ ':')) :=
    List.takeWhile_idem
  refine ⟨⟨by rw [hself]; exact hne, ?_⟩, ?_⟩
  · intro c hc
    rw [hself] at hc
    exact hname c hc
  · left
    rw [List.dropWhile_eq_nil_iff]
    intro c hc
    simpa using List.mem_takeWhile_imp hc

theorem hostnameNorm_cases (sc s : GoStr) :
    hostnameNorm sc s = toLower s ∨
    hostnameNorm sc s = (toLower s).takeWhile (fun c => decide (c ≠ ':')) := by
  unfold hostnameNorm
  dsimp only
  split
  · split
    · right; rfl
    · split
      · right; rfl
      · left; rfl
  · left; rfl

theorem hostnameNorm_validHost (sc s : GoStr) (h : validHost s = true) :
    validHost (hostnameNorm sc s) = true := by
  rcases hostnameNorm_cases sc s with hc | hc <;> rw [hc]
  · exact validHost_toLower s h
  · exact validHost_takeWhile (toLower s) (validHost_toLower s h)

theorem hostnameNorm_lowered (sc s : GoStr) :
    ∀ c ∈ hostnameNorm sc s, toLowerChar c = c := by
  intro c hc
  rcases hostnameNorm_cases sc s with h | h <;> rw [h] at hc
  · exact mem_toLower_lowered s c hc
  · exact mem_toLower_lowered s c ((List.takeWhile_sublist _).mem hc)

theorem takeWhile_colon_lowered (s : GoStr) :
    toLower ((toLower s).takeWhile (fun x => decide (x ≠ ':')))
      = (toLower s).takeWhile (fun x => decide (x ≠ ':')) :=
  toLower_of_lowered _
    (fun c hc => mem_toLower_lowered s c ((List.takeWhile_sublist _).mem hc))

theorem dropWhile_takeWhile_colon (s : GoStr) :
    List.dropWhile (fun x => decide (x ≠ ':'))
      ((toLower s).takeWhile (fun x => decide (x ≠ ':'))) = [] := by
  rw [List.dropWhile_eq_nil_iff]
  intro c hc
  simpa using List.mem_takeWhile_imp hc

theorem hostnameNorm_idem (sc s : GoStr) :
    hostnameNorm sc (hostnameNorm sc s) = hostnameNorm sc s := by
  unfold hostnameNorm
  dsimp only
  by_cases h1 : (List.dropWhile (fun x => decide (x ≠ ':')) (toLower s)).head?
      = some ':'
  · rw [if_pos h1]
    by_cases h2 : sc = "http".data ∧
        (List.dropWhile (fun x => decide (x ≠ ':')) (toLower s)).tail = "80".data
    · rw [if_pos h2]
      rw [takeWhile_colon_lowered, dropWhile_takeWhile_colon]
      simp [takeWhile_colon_lowered]
    · rw [if_neg h2]
      by_cases h3 : sc = "https".data ∧
          (List.dropWhile (fun x => decide (x ≠ ':')) (toLower s)).tail = "443".data
      · rw [if_pos h3]
        rw [takeWhile_colon_lowered, dropWhile_takeWhile_colon]
        simp [takeWhile_colon_lowered]
      · rw [if_neg h3]
        rw [toLower_idem]
        rw [if_pos h1, if_neg h2, if_neg h3]
  · rw [if_neg h1]
    rw [toLower_idem]
    rw [if_neg h1]

theorem hostnameNorm_ne_nil (sc s : GoStr) (h : validHost s = true) :
    hostnameNorm sc s ≠ [] := by
  have hv := hostnameNorm_validHost sc s h
  unfold validHost at hv
  simp only [Bool.and_eq_true, decide_eq_true_eq] at hv
  intro hcontra
  rw [hcontra] at hv
  exact hv.1.1 rfl

/-! ### Structure of cleaned paths -/

/-- A segment list in the image of path cleaning: a (possibly empty) run
of dot-dot segments followed by segments that are not dot-dot. -/
def CleanShape (l : List GoStr) : Prop :=
  ∃ k rest, l = List.replicate k ['.', '.'] ++ rest ∧ ['.', '.'] ∉ rest

theorem mem_splitCh_chars (sep : Char) (p : GoStr) :
    ∀ s ∈ splitCh sep p, ∀ c ∈ s, c ∈ p := by
  induction p with
  | nil =>
    intro s hs c hc
    simp only [splitCh, List.mem_singleton] at hs
    subst hs
    cases hc
  | cons x xs ih =>
    intro s hs c hc
    simp only [splitCh] at hs
    by_cases hx : x = sep
    · rw [if_pos hx] at hs
      rcases List.mem_cons.mp hs with h | h
      · subst h; cases hc
      · exact List.mem_cons_of_mem x (ih s h c hc)
    · rw [if_neg hx] at hs
      cases hsp : splitCh sep xs with
      | nil => exact absurd hsp (splitCh_ne_nil sep xs)
      | cons y ys =>
        rw [hsp] at hs
        rcases List.mem_cons.mp hs with h | h
        · subst h
          rcases List.mem_cons.mp hc with h2 | h2
          · subst h2; exact List.mem_cons_self c xs
          · exact List.mem_cons_of_mem x (ih y (hsp ▸ List.mem_cons_self y ys) c h2)
        · exact List.mem_cons_of_mem x (ih s (hsp ▸ List.mem_cons_of_mem y h) c hc)

theorem mem_intercalateCh (d : Char) (l : List GoStr) (c : Char)
    (hc : c ∈ intercalateCh d l) : c = d ∨ ∃ s ∈ l, c ∈ s := by
  cases l with
  | nil => cases hc
  | cons p ps =>
    unfold intercalateCh at hc
    rcases List.mem_append.mp hc with h | h
    · exact .inr ⟨p, List.mem_cons_self p ps, h⟩
    · obtain ⟨q, hq, hcq⟩ := List.mem_flatMap.mp h
      rcases List.mem_cons.mp hcq with h2 | h2
      · exact .inl h2
      · exact .inr ⟨q, List.mem_cons_of_mem p hq, h2⟩

theorem intercalateCh_head (d : Char) (h0 : GoStr) (t : List GoStr) (c0 : Char)
    (tl : GoStr) (hh : h0 = c0 :: tl) :
    (intercalateCh d (h0 :: t)).head? = some c0 := by
  subst hh
  rfl

theorem cleanStep_push (rooted : Bool) (acc : List GoStr) (s : GoStr)
    (h1 : s ≠ []) (h2 : s ≠ ['.']) (h3 : s ≠ ['.', '.']) :
    cleanStep rooted acc s = s :: acc := by
  unfold cleanStep
  rw [if_neg (by simp [h1, h2]), if_neg h3]

theorem foldl_cleanStep_norm (l : List GoStr)
    (hdots : ['.', '.'] ∉ l) (helem : ∀ s ∈ l, s ≠ [] ∧ s ≠ ['.']) :
    ∀ acc, l.foldl (cleanStep false) acc = l.reverse ++ acc := by
  induction l with
  | nil => intro acc; rfl
  | cons s t ih =>
    intro acc
    rw [List.foldl_cons]
    have hs := helem s (List.mem_cons_self s t)
    have hs3 : s ≠ ['.', '.'] := fun hc => hdots (hc ▸ List.mem_cons_self s t)
    rw [cleanStep_push false acc s hs.1 hs.2 hs3]
    rw [ih (fun hc => hdots (List.mem_cons_of_mem s hc))
      (fun q hq => helem q (List.mem_cons_of_mem s hq))]
    simp

theorem foldl_cleanStep_dots (k : Nat) :
    ∀ j, (List.replicate k ['.', '.']).foldl (cleanStep false)
        (List.replicate j ['.', '.'])
      = List.replicate (k + j) ['.', '.'] := by
  induction k with
  | zero => intro j; simp
  | succ n ih =>
    intro j
    rw [List.replicate_succ, List.foldl_cons]
    have hstep : cleanStep false (List.replicate j ['.', '.']) ['.', '.']
        = List.replicate (j + 1) ['.', '.'] := by
      unfold cleanStep
      rw [if_neg (by simp)]
      simp only [Bool.false_eq_true, if_false]
      cases j with
      | zero => rfl
      | succ m =>
        rw [List.replicate_succ]
        dsimp only
        rw [if_pos rfl]
        rw [← List.replicate_succ, ← List.replicate_succ]
        rfl
    rw [hstep, ih (j + 1)]
    congr 1
    omega

theorem cleanShape_fold_id (l : List GoStr) (hshape : CleanShape l)
    (helem : ∀ s ∈ l, s ≠ [] ∧ s ≠ ['.']) :
    (l.foldl (cleanStep false) []).reverse = l := by
  obtain ⟨k, rest, hl, hdots⟩ := hshape
  subst hl
  rw [List.foldl_append]
  have h1 : (List.replicate k ['.', '.']).foldl (cleanStep false) []
      = List.replicate k ['.', '.'] := by
    have := foldl_cleanStep_dots k 0
    simpa using this
  rw [h1]
  rw [foldl_cleanStep_norm rest hdots
    (fun s hs => helem s (List.mem_append.mpr (.inr hs)))]
  rw [List.reverse_append, List.reverse_reverse, List.reverse_replicate]

/-- Invariant of the cleaning accumulator (kept in reverse order): no
empty or dot segments, every segment from the universe or a dot-dot, and
all dot-dots at the bottom. -/
def AccInv (U : List GoStr) (acc : List GoStr) : Prop :=
  (∀ s ∈ acc, s ≠ [] ∧ s ≠ ['.'] ∧ (s ∈ U ∨ s = ['.', '.'])) ∧
  ∃ rr k, acc = rr ++ List.replicate k ['.', '.'] ∧ ['.', '.'] ∉ rr

theorem cleanStep_inv (U : List GoStr) (s : GoStr) (hs : s ∈ U)
    (acc : List GoStr) (hinv : AccInv U acc) :
    AccInv U (cleanStep false acc s) := by
  obtain ⟨helem, rr, k, hacc, hdots⟩ := hinv
  unfold cleanStep
  by_cases h1 : s = [] ∨ s = ['.']
  · rw [if_pos h1]
    exact ⟨helem, rr, k, hacc, hdots⟩
  · rw [if_neg h1]
    by_cases h2 : s = ['.', '.']
    · rw [if_pos h2]
      simp only [Bool.false_eq_true, if_false]
      cases hc : acc with
      | nil =>
        refine ⟨?_, [], 1, by simp, by simp⟩
        intro q hq
        simp only [List.mem_singleton] at hq
        subst hq
        exact ⟨by simp, by simp, .inr rfl⟩
      | cons a rest =>
        dsimp only
        by_cases ha : a = ['.', '.']
        · rw [if_pos ha]
          have hrr : rr = [] := by
            cases hrr : rr with
            | nil => rfl
            | cons r rs =>
              exfalso
              rw [hrr] at hacc hdots
              rw [hc] at hacc
              simp only [List.cons_append, List.cons.injEq] at hacc
              apply hdots
              rw [show r = ['.', '.'] from hacc.1.symm.trans ha]
              exact List.mem_cons_self _ _
          rw [hrr] at hacc
          simp only [List.nil_append] at hacc
          refine ⟨?_, [], k + 1, ?_, by simp⟩
          · intro q hq
            rcases List.mem_cons.mp hq with hq2 | hq2
            · subst hq2
              exact ⟨by simp [h2], by simp [h2], .inr h2⟩
            · rw [hc] at helem
              exact helem q hq2
          · rw [h2, ← hc, hacc, List.replicate_succ]
            rfl
        · rw [if_neg ha]
          cases hrr : rr with
          | nil =>
            exfalso
            rw [hrr] at hacc
            simp only [List.nil_append] at hacc
            rw [hc] at hacc
            cases k with
            | zero => cases hacc
            | succ m =>
              rw [List.replicate_succ] at hacc
              exact ha (List.cons.inj hacc).1
          | cons r rs =>
            rw [hrr] at hacc hdots
            rw [hc] at hacc
            simp only [List.cons_append, List.cons.injEq] at hacc
            refine ⟨?_, rs, k, hacc.2, fun hm => hdots (List.mem_cons_of_mem r hm)⟩
            intro q hq
            rw [hc] at helem
            exact helem q (List.mem_cons_of_mem a hq)
    · rw [if_neg h2]
      push_neg at h1
      refine ⟨?_, s :: rr, k, by rw [hacc]; rfl, ?_⟩
      · intro q hq
        rcases List.mem_cons.mp hq with hq2 | hq2
        · subst hq2
          exact ⟨h1.1, h1.2, .inl hs⟩
        · exact helem q hq2
      · intro hm
        rcases List.mem_cons.mp hm with hm2 | hm2
        · exact h2 hm2.symm
        · exact hdots hm2

theorem foldl_cleanStep_inv (U : List GoStr) (l : List GoStr)
    (hl : ∀ s ∈ l, s ∈ U) :
    ∀ acc, AccInv U acc → AccInv U (l.foldl (cleanStep false) acc) := by
  induction l with
  | nil => intro acc h; exact h
  | cons s t ih =>
    intro acc h
    rw [List.foldl_cons]
    exact ih (fun q hq => hl q (List.mem_cons_of_mem s hq))
      (cleanStep false acc s)
      (cleanStep_inv U s (hl s (List.mem_cons_self s t)) acc h)

theorem dropWhile_head_false {α : Type} {p : α → Bool} {l : List α} {a : α}
    {t : List α} (h : l.dropWhile p = a :: t) : p a = false := by
  induction l with
  | nil => cases h
  | cons x xs ih =>
    rw [List.dropWhile_cons] at h
    by_cases hx : p x = true
    · rw [if_pos hx] at h
      exact ih h
    · rw [if_neg hx] at h
      cases h
      simpa using hx

theorem pathClean_output (x : GoStr) (hx : x ≠ []) (hroot : ¬ x.head? = some '/') :
    pathClean x = ['.'] ∨
    (∃ cs, cs ≠ [] ∧ CleanShape cs ∧
      (∀ s ∈ cs, s ≠ [] ∧ s ≠ ['.'] ∧ (s ∈ splitCh '/' x ∨ s = ['.', '.'])) ∧
      pathClean x = intercalateCh '/' cs) := by
  unfold pathClean
  rw [if_neg hx]
  simp only [decide_eq_false hroot]
  rw [if_neg hroot]
  have hinv := foldl_cleanStep_inv (splitCh '/' x) (splitCh '/' x)
    (fun s hs => hs) [] ⟨by simp, [], 0, by simp, by simp⟩
  obtain ⟨helem, rr, k, hacc, hdots⟩ := hinv
  by_cases hcs : ((splitCh '/' x).foldl (cleanStep false) []).reverse = []
  · rw [if_pos hcs]
    left
    rfl
  · rw [if_neg hcs]
    right
    refine ⟨_, hcs, ?_, ?_, rfl⟩
    · refine ⟨k, rr.reverse, ?_, ?_⟩
      · rw [hacc, List.reverse_append, List.reverse_replicate]
      · simpa using hdots
    · intro s hs
      exact helem s (List.mem_reverse.mp hs)


/-! ### Span lemmas for takeWhile and dropWhile over concatenations -/

theorem takeWhile_all {p : Char → Bool} (l : GoStr) (h : ∀ c ∈ l, p c = true) :
    l.takeWhile p = l := by
  induction l with
  | nil => rfl
  | cons x xs ih =>
    rw [List.takeWhile_cons, if_pos (h x (List.mem_cons_self x xs))]
    rw [ih (fun c hc => h c (List.mem_cons_of_mem x hc))]

theorem dropWhile_all {p : Char → Bool} (l : GoStr) (h : ∀ c ∈ l, p c = true) :
    l.dropWhile p = [] := by
  induction l with
  | nil => rfl
  | cons x xs ih =>
    rw [List.dropWhile_cons, if_pos (h x (List.mem_cons_self x xs))]
    exact ih (fun c hc => h c (List.mem_cons_of_mem x hc))

theorem takeWhile_append_all {p : Char → Bool} (a l : GoStr)
    (h : ∀ c ∈ a, p c = true) :
    (a ++ l).takeWhile p = a ++ l.takeWhile p := by
  induction a with
  | nil => rfl
  | cons x xs ih =>
    rw [List.cons_append, List.takeWhile_cons,
      if_pos (h x (List.mem_cons_self x xs))]
    rw [ih (fun c hc => h c (List.mem_cons_of_mem x hc))]
    rfl

theorem dropWhile_append_all {p : Char → Bool} (a l : GoStr)
    (h : ∀ c ∈ a, p c = true) :
    (a ++ l).dropWhile p = l.dropWhile p := by
  induction a with
  | nil => rfl
  | cons x xs ih =>
    rw [List.cons_append, List.dropWhile_cons,
      if_pos (h x (List.mem_cons_self x xs))]
    exact ih (fun c hc => h c (List.mem_cons_of_mem x hc))

theorem takeWhile_cons_false {p : Char → Bool} (a : Char) (l : GoStr)
    (h : p a = false) : (a :: l).takeWhile p = [] := by
  rw [List.takeWhile_cons, h]
  rfl

theorem dropWhile_cons_false {p : Char → Bool} (a : Char) (l : GoStr)
    (h : p a = false) : (a :: l).dropWhile p = a :: l := by
  rw [List.dropWhile_cons, h]
  rfl

theorem splitLast_of_not_mem (c : Char) (l : GoStr) (h : c ∉ l) :
    splitLast c l = none := by
  induction l with
  | nil => rfl
  | cons x xs ih =>
    unfold splitLast
    rw [ih (fun hc => h (List.mem_cons_of_mem x hc))]
    rw [if_neg (fun hc : x = c => h (by rw [← hc]; exact List.mem_cons_self x xs))]

theorem splitLast_append_unique (c : Char) (a b : GoStr)
    (ha : c ∉ a) (hb : c ∉ b) : splitLast c (a ++ c :: b) = some (a, b) := by
  induction a with
  | nil =>
    rw [List.nil_append]
    unfold splitLast
    rw [splitLast_of_not_mem c b hb, if_pos rfl]
  | cons x xs ih =>
    rw [List.cons_append]
    unfold splitLast
    rw [ih (fun hc => ha (List.mem_cons_of_mem x hc))]

theorem getLast?_mem {l : GoStr} {a : Char} (h : l.getLast? = some a) :
    a ∈ l := by
  induction l with
  | nil => cases h
  | cons x xs ih =>
    cases xs with
    | nil =>
      simp only [List.getLast?_singleton, Option.some.injEq] at h
      subst h
      exact List.mem_cons_self _ _
    | cons y ys =>
      rw [List.getLast?_cons_cons] at h
      exact List.mem_cons_of_mem x (ih h)

theorem dropLast_cons_ne (a : Char) (l : GoStr) (h : l ≠ []) :
    (a :: l).dropLast = a :: l.dropLast := by
  cases l with
  | nil => exact absurd rfl h
  | cons y ys => rfl

theorem dropLast_append_ne (a l : GoStr) (h : l ≠ []) :
    (a ++ l).dropLast = a ++ l.dropLast := by
  induction a with
  | nil => rfl
  | cons x xs ih =>
    rw [List.cons_append]
    rw [dropLast_cons_ne x (xs ++ l) (by simp [h]), ih, List.cons_append]

theorem contains_of_mem {l : GoStr} {a : Char} (h : a ∈ l) :
    l.contains a = true := by
  induction l with
  | nil => cases h
  | cons x xs ih =>
    show List.elem a (x :: xs) = true
    unfold List.elem
    by_cases hax : (a == x) = true
    · rw [hax]
    · have hax2 : (a == x) = false := by simpa using hax
      rw [hax2]
      rcases List.mem_cons.mp h with h2 | h2
      · subst h2
        simp at hax
      · exact ih h2

/-! ### Fixed points of path cleaning and pathname -/

theorem splitCh_eq_single_nil (c : Char) (l : GoStr)
    (h : splitCh c l = [[]]) : l = [] := by
  cases l with
  | nil => rfl
  | cons x xs =>
    exfalso
    unfold splitCh at h
    by_cases hx : x = c
    · rw [if_pos hx] at h
      have : splitCh c xs = [] := (List.cons.inj h).2
      exact splitCh_ne_nil c xs this
    · rw [if_neg hx] at h
      cases hsp : splitCh c xs with
      | nil => exact splitCh_ne_nil c xs hsp
      | cons y ys =>
        rw [hsp] at h
        exact List.cons_ne_nil x y (List.cons.inj h).1

theorem pathClean_fixed (cs : List GoStr) (hne : cs ≠ [])
    (helem : ∀ s ∈ cs, s ≠ [] ∧ s ≠ ['.'] ∧ '/' ∉ s)
    (hshape : CleanShape cs) :
    pathClean (intercalateCh '/' cs) = intercalateCh '/' cs := by
  have hx : intercalateCh '/' cs ≠ [] := by
    cases cs with
    | nil => exact absurd rfl hne
    | cons s0 t =>
      have hs0 := (helem s0 (List.mem_cons_self s0 t)).1
      cases s0 with
      | nil => exact absurd rfl hs0
      | cons c0 s0t => simp [intercalateCh]
  have hroot : ¬ (intercalateCh '/' cs).head? = some '/' := by
    cases cs with
    | nil => exact absurd rfl hne
    | cons s0 t =>
      have hs0 := helem s0 (List.mem_cons_self s0 t)
      cases s0 with
      | nil => exact absurd rfl hs0.1
      | cons c0 s0t =>
        rw [intercalateCh_head '/' (c0 :: s0t) t c0 s0t rfl]
        intro hc
        have : c0 = '/' := by simpa using hc
        exact hs0.2.2 (this ▸ List.mem_cons_self c0 s0t)
  unfold pathClean
  rw [if_neg hx]
  simp only [decide_eq_false hroot]
  rw [if_neg hroot]
  have hsplit : splitCh '/' (intercalateCh '/' cs) = cs :=
    splitCh_intercalate '/' cs hne (fun q hq => (helem q hq).2.2)
  rw [hsplit]
  rw [cleanShape_fold_id cs hshape
    (fun s hs => ⟨(helem s hs).1, (helem s hs).2.1⟩)]
  rw [if_neg hne]

theorem pathname_output (p : GoStr) :
    pathname p = ['/'] ∨ pathname p = [] ∨ pathname p = ['.'] ∨
    (∃ cs, cs ≠ [] ∧ CleanShape cs ∧
      (∀ s ∈ cs, s ≠ [] ∧ s ≠ ['.'] ∧ '/' ∉ s ∧ ∀ c ∈ s, c ∈ p ∨ c = '.') ∧
      pathname p = intercalateCh '/' cs) := by
  by_cases hp : p = [] ∨ p = ['/']
  · left
    unfold pathname
    rw [if_pos hp]
  · unfold pathname
    rw [if_neg hp]
    unfold goPathJoin
    cases hl : (splitCh '/' p).dropWhile (fun s => decide (s = [])) with
    | nil =>
      right; left; rfl
    | cons a t =>
      dsimp only
      have hmem : ∀ s ∈ a :: t, s ∈ splitCh '/' p := by
        intro s hs
        rw [← hl] at hs
        exact (List.dropWhile_sublist _).mem hs
      have ha : a ≠ [] := by
        have := dropWhile_head_false hl
        simpa using this
      have hx : intercalateCh '/' (a :: t) ≠ [] := by
        cases a with
        | nil => exact absurd rfl ha
        | cons c0 at0 => simp [intercalateCh]
      have hroot : ¬ (intercalateCh '/' (a :: t)).head? = some '/' := by
        cases a with
        | nil => exact absurd rfl ha
        | cons c0 at0 =>
          rw [intercalateCh_head '/' (c0 :: at0) t c0 at0 rfl]
          intro hc
          have hc0 : c0 = '/' := by simpa using hc
          have := mem_splitCh_not_sep '/' p (c0 :: at0)
            (hmem (c0 :: at0) (List.mem_cons_self (c0 :: at0) t))
          exact this (hc0 ▸ List.mem_cons_self c0 at0)
      rcases pathClean_output (intercalateCh '/' (a :: t)) hx hroot with h | ⟨cs, hcne, hshape, hseg, h⟩
      · right; right; left
        exact h
      · right; right; right
        refine ⟨cs, hcne, hshape, ?_, h⟩
        intro s hs
        obtain ⟨hs1, hs2, hs3⟩ := hseg s hs
        have hslash : '/' ∉ s := by
          rcases hs3 with h3 | h3
          · exact mem_splitCh_not_sep '/' (intercalateCh '/' (a :: t)) s h3
          · rw [h3]
            decide
        refine ⟨hs1, hs2, hslash, ?_⟩
        intro c hc
        rcases hs3 with h3 | h3
        · have hcx : c ∈ intercalateCh '/' (a :: t) :=
            mem_splitCh_chars '/' _ s h3 c hc
          rcases mem_intercalateCh '/' (a :: t) c hcx with h4 | ⟨q, hq, hcq⟩
          · exact absurd (h4 ▸ hc) hslash
          · left
            exact mem_splitCh_chars '/' p q (hmem q hq) c hcq
        · right
          rw [h3] at hc
          rcases List.mem_cons.mp hc with h5 | h5
          · exact h5
          · simpa using h5

theorem pathname_fixed (p : GoStr) (hy : pathname p ≠ []) :
    pathname (pathname p) = pathname p ∧
    ((pathname p).head? ≠ some '/' → pathname ('/' :: pathname p) = pathname p) ∧
    (pathname p = ['/'] ∨ (pathname p).head? ≠ some '/') := by
  rcases pathname_output p with h | h | h | ⟨cs, hne, hshape, hseg, h⟩
  · rw [h]
    exact ⟨by decide, fun hh => absurd rfl hh, .inl rfl⟩
  · exact absurd h hy
  · rw [h]
    exact ⟨by decide, fun _ => by decide, .inr (by decide)⟩
  · rw [h]
    have helem : ∀ s ∈ cs, s ≠ [] ∧ s ≠ ['.'] ∧ '/' ∉ s :=
      fun s hs => ⟨(hseg s hs).1, (hseg s hs).2.1, (hseg s hs).2.2.1⟩
    have hhead : (intercalateCh '/' cs).head? ≠ some '/' := by
      cases cs with
      | nil => exact absurd rfl hne
      | cons s0 t =>
        have hs0 := helem s0 (List.mem_cons_self s0 t)
        cases s0 with
        | nil => exact absurd rfl hs0.1
        | cons c0 s0t =>
          rw [intercalateCh_head '/' (c0 :: s0t) t c0 s0t rfl]
          intro hc
          have hc0 : c0 = '/' := by simpa using hc
          exact hs0.2.2 (hc0 ▸ List.mem_cons_self c0 s0t)
    have hxne : intercalateCh '/' cs ≠ [] := by rw [← h]; exact hy
    have hsplit : splitCh '/' (intercalateCh '/' cs) = cs :=
      splitCh_intercalate '/' cs hne (fun q hq => (helem q hq).2.2)
    have hdrop : cs.dropWhile (fun s => decide (s = [])) = cs := by
      cases cs with
      | nil => rfl
      | cons s0 t =>
        rw [List.dropWhile_cons,
          if_neg (by simpa using (helem s0 (List.mem_cons_self s0 t)).1)]
    have hfix : pathname (intercalateCh '/' cs) = intercalateCh '/' cs := by
      unfold pathname
      rw [if_neg ?hguard]
      case hguard =>
        intro hg
        rcases hg with hg | hg
        · exact hxne hg
        · exact hhead (by rw [hg]; rfl)
      unfold goPathJoin
      rw [hsplit, hdrop]
      cases cs with
      | nil => exact absurd rfl hne
      | cons s0 t =>
        exact pathClean_fixed (s0 :: t) hne helem hshape
    refine ⟨hfix, ?_, .inr hhead⟩
    intro _
    unfold pathname
    rw [if_neg ?hguard2]
    case hguard2 =>
      intro hg
      rcases hg with hg | hg
      · exact List.cons_ne_nil '/' _ hg
      · have : intercalateCh '/' cs = [] := (List.cons.inj hg).2
        exact hxne this
    rw [splitCh_cons_sep '/' (intercalateCh '/' cs)]
    unfold goPathJoin
    rw [hsplit]
    rw [List.dropWhile_cons, if_pos (by simp), hdrop]
    cases cs with
    | nil => exact absurd rfl hne
    | cons s0 t =>
      exact pathClean_fixed (s0 :: t) hne helem hshape

/-! ### queryNorm is idempotent -/

theorem queryNorm_chars (q : GoStr) :
    ∀ c ∈ queryNorm q, c = '&' ∨ c ∈ q := by
  intro c hc
  unfold queryNorm at hc
  by_cases hq : q ≠ []
  · rw [if_pos hq] at hc
    rcases mem_intercalateCh '&' _ c hc with h | ⟨s, hs, hcs⟩
    · left; exact h
    · right
      have hs2 : s ∈ splitCh '&' q :=
        (List.perm_insertionSort GoLe (splitCh '&' q)).mem_iff.mp hs
      exact mem_splitCh_chars '&' q s hs2 c hcs
  · rw [if_neg hq] at hc
    cases hc

theorem queryNorm_ne_nil (q : GoStr) (hq : q ≠ []) : queryNorm q ≠ [] := by
  unfold queryNorm
  rw [if_pos hq]
  intro hcontra
  cases hs : List.insertionSort GoLe (splitCh '&' q) with
  | nil =>
    have hp := List.perm_insertionSort GoLe (splitCh '&' q)
    rw [hs] at hp
    exact splitCh_ne_nil '&' q hp.symm.eq_nil
  | cons s t =>
    rw [hs] at hcontra
    unfold intercalateCh at hcontra
    rcases List.append_eq_nil.mp hcontra with ⟨hs0, hflat⟩
    cases t with
    | nil =>
      subst hs0
      have hp := List.perm_insertionSort GoLe (splitCh '&' q)
      rw [hs] at hp
      have hpp : splitCh '&' q = [[]] := List.perm_singleton.mp hp.symm
      exact hq (splitCh_eq_single_nil '&' q hpp)
    | cons s2 t2 =>
      simp [List.flatMap_cons] at hflat

theorem queryNorm_idem (q : GoStr) : queryNorm (queryNorm q) = queryNorm q := by
  by_cases hq : q = []
  · subst hq
    decide
  · have h1 : queryNorm q
        = intercalateCh '&' (List.insertionSort GoLe (splitCh '&' q)) := by
      unfold queryNorm
      rw [if_pos hq]
    have hnn : queryNorm q ≠ [] := queryNorm_ne_nil q hq
    rw [h1] at hnn
    rw [h1]
    unfold queryNorm
    rw [if_pos hnn]
    have hsep : ∀ p ∈ List.insertionSort GoLe (splitCh '&' q), '&' ∉ p := by
      intro p hp
      exact mem_splitCh_not_sep '&' q p
        ((List.perm_insertionSort GoLe (splitCh '&' q)).mem_iff.mp hp)
    have hne2 : List.insertionSort GoLe (splitCh '&' q) ≠ [] := by
      intro hcontra
      have hp := List.perm_insertionSort GoLe (splitCh '&' q)
      rw [hcontra] at hp
      exact splitCh_ne_nil '&' q hp.symm.eq_nil
    rw [splitCh_intercalate '&' _ hne2 hsep]
    rw [List.Sorted.insertionSort_eq (List.sorted_insertionSort GoLe (splitCh '&' q))]

/-! ### Character-class facts used when reparsing a serialized URL -/

theorem isAlnum_ranges (c : Char) (h : isAlnum c = true) :
    (48 ≤ c.toNat ∧ c.toNat ≤ 57) ∨ (65 ≤ c.toNat ∧ c.toNat ≤ 90) ∨
    (97 ≤ c.toNat ∧ c.toNat ≤ 122) := by
  simp only [isAlnum, isAlpha, isDigit, Bool.or_eq_true, decide_eq_true_eq] at h
  omega

theorem alnum_ok (c : Char) (h : isAlnum c = true) :
    c ≠ ':' ∧ c ≠ '#' ∧ c ≠ '?' ∧ c ≠ '/' ∧ c ≠ '@' ∧ c ≠ '&' ∧
      isCtlOrHigh c = false := by
  have hr := isAlnum_ranges c h
  refine ⟨?_, ?_, ?_, ?_, ?_, ?_, isAlnum_not_ctl c h⟩
  · exact char_ne_of_toNat_ne (by rw [show (':').toNat = 58 from rfl]; omega)
  · exact char_ne_of_toNat_ne (by rw [show ('#').toNat = 35 from rfl]; omega)
  · exact char_ne_of_toNat_ne (by rw [show ('?').toNat = 63 from rfl]; omega)
  · exact char_ne_of_toNat_ne (by rw [show ('/').toNat = 47 from rfl]; omega)
  · exact char_ne_of_toNat_ne (by rw [show ('@').toNat = 64 from rfl]; omega)
  · exact char_ne_of_toNat_ne (by rw [show ('&').toNat = 38 from rfl]; omega)

theorem schemeChar_ok (c : Char) (h : validSchemeChar c = true) :
    c ≠ ':' ∧ c ≠ '#' ∧ c ≠ '?' ∧ c ≠ '/' ∧ isCtlOrHigh c = false := by
  unfold validSchemeChar at h
  simp only [Bool.or_eq_true, decide_eq_true_eq] at h
  rcases h with ((h | h) | h) | h
  · obtain ⟨h1, h2, h3, h4, _, _, h7⟩ := alnum_ok c h
    exact ⟨h1, h2, h3, h4, h7⟩
  · subst h; refine ⟨by decide, by decide, by decide, by decide, by decide⟩
  · subst h; refine ⟨by decide, by decide, by decide, by decide, by decide⟩
  · subst h; refine ⟨by decide, by decide, by decide, by decide, by decide⟩

theorem validScheme_chars (s : GoStr) (h : validScheme s = true) :
    ∀ c ∈ s, validSchemeChar c = true := by
  cases s with
  | nil => cases h
  | cons c rest =>
    unfold validScheme at h
    simp only [Bool.and_eq_true, List.all_eq_true] at h
    intro d hd
    rcases List.mem_cons.mp hd with h2 | h2
    · subst h2
      unfold validSchemeChar
      rw [show isAlnum d = true from by unfold isAlnum; rw [h.1]; rfl]
      rfl
    · exact h.2 d h2

theorem host_ok (c : Char) (h : hostCharProp c) :
    c ≠ '#' ∧ c ≠ '?' ∧ c ≠ '/' ∧ c ≠ '@' ∧ isCtlOrHigh c = false ∧
      shouldEscapeHost c = false := by
  have halnum : isAlnum c = true ∨ c = '.' ∨ c = '-' ∨ c = ':' := by
    rcases h with h | h | h | h | h
    · left; exact h
    · right; left; exact h
    · right; right; left; exact h
    · right; right; right; exact h
    · left
      unfold isAlnum
      rw [h]
      simp
  have hesc : shouldEscapeHost c = false := by
    rcases halnum with h2 | h2 | h2 | h2
    · unfold shouldEscapeHost
      rw [if_pos h2]
    · subst h2; decide
    · subst h2; decide
    · subst h2; decide
  rcases halnum with h2 | h2 | h2 | h2
  · obtain ⟨_, hb, hc2, hd, he, _, hg⟩ := alnum_ok c h2
    exact ⟨hb, hc2, hd, he, hg, hesc⟩
  · subst h2; exact ⟨by decide, by decide, by decide, by decide, by decide, hesc⟩
  · subst h2; exact ⟨by decide, by decide, by decide, by decide, by decide, hesc⟩
  · subst h2; exact ⟨by decide, by decide, by decide, by decide, by decide, hesc⟩

theorem escapePathChar_ok (p : GoStr) (hlt : ∀ c ∈ p, c.toNat < 256)
    (d : Char) (hd : d ∈ escapePath p) :
    d ≠ '#' ∧ d ≠ '?' ∧ isCtlOrHigh d = false := by
  rcases mem_escapePath p hlt d hd with ⟨hf, _⟩ | h | h
  · refine ⟨shouldEscapePath_false_ne d hf '#' (by decide),
      shouldEscapePath_false_ne d hf '?' (by decide), ?_⟩
    obtain ⟨h1, h2⟩ := shouldEscapePath_false_bounds d hf
    exact notCtl_of_bounds d (by omega) (by omega)
  · subst h; exact ⟨by decide, by decide, by decide⟩
  · obtain ⟨_, hb, hc2, _, _, _, hg⟩ := alnum_ok d h
    exact ⟨hb, hc2, hg⟩

theorem flatMap_escapeChar_id (pred : Char → Bool) (s : GoStr)
    (h : ∀ c ∈ s, pred c = false) : s.flatMap (escapeChar pred) = s := by
  induction s with
  | nil => rfl
  | cons c t ih =>
    rw [List.flatMap_cons]
    unfold escapeChar
    rw [h c (List.mem_cons_self c t)]
    simp only [Bool.false_eq_true, if_false, List.singleton_append, List.cons.injEq,
      true_and]
    exact ih (fun d hd => h d (List.mem_cons_of_mem c hd))

theorem escapeHost_id (h : GoStr) (hv : validHost h = true) :
    escapeHost h = h :=
  flatMap_escapeChar_id shouldEscapeHost h
    (fun c hc => (host_ok c (validHost_chars h hv c hc)).2.2.2.2.2)

/-! ### Invariants of a successfully parsed URL -/

theorem unescapePath_head_slash {r p : GoStr} (hr : r.head? = some '/')
    (h : unescapePath r = some p) : p.head? = some '/' := by
  cases r with
  | nil => cases hr
  | cons c t =>
    have hc : c = '/' := by simpa using hr
    subst hc
    rw [unescapePath_cons_not_pct '/' t (by decide)] at h
    cases hu : unescapePath t with
    | none => rw [hu] at h; cases h
    | some d =>
      rw [hu] at h
      simp only [Option.map_some', Option.some.injEq] at h
      rw [← h]
      rfl

theorem unescapePath_eq_slash {r : GoStr} (hr : r.head? = some '/')
    (h : unescapePath r = some ['/']) : r = ['/'] := by
  cases r with
  | nil => cases hr
  | cons c t =>
    have hc : c = '/' := by simpa using hr
    subst hc
    rw [unescapePath_cons_not_pct '/' t (by decide)] at h
    cases hu : unescapePath t with
    | none => rw [hu] at h; cases h
    | some d =>
      rw [hu] at h
      simp only [Option.map_some', Option.some.injEq, List.cons.injEq, true_and] at h
      rw [unescapePath_nil_of_some_nil t (by rw [hu, h])]


theorem parse_inv_core (u : GoURL) (schemeRaw rest2 rq frag : GoStr) (fqv : Bool)
    (hsch : validScheme schemeRaw = true)
    (hr2 : ∀ c ∈ rest2, isCtlOrHigh c = false)
    (hrq : ∀ c ∈ rq, isCtlOrHigh c = false ∧ c ≠ '#')
    (hp : (if
        ((match
              match splitLast '@' (List.takeWhile (fun x => decide (x ≠ '/')) rest2) with
              | some (us, _) => some us
              | none => none with
            | some us => validUser us
            | none => true) &&
            validHost
              (match splitLast '@' (List.takeWhile (fun x => decide (x ≠ '/')) rest2) with
              | some (_, h) => h
              | none => List.takeWhile (fun x => decide (x ≠ '/')) rest2)) =
          true then
      match unescapePath (List.dropWhile (fun x => decide (x ≠ '/')) rest2) with
      | none => none
      | some path =>
        some
          { scheme := toLower schemeRaw,
            user :=
              match splitLast '@' (List.takeWhile (fun x => decide (x ≠ '/')) rest2) with
              | some (us, _) => some us
              | none => none,
            host :=
              match splitLast '@' (List.takeWhile (fun x => decide (x ≠ '/')) rest2) with
              | some (_, h) => h
              | none => List.takeWhile (fun x => decide (x ≠ '/')) rest2,
            path := path,
            rawPath :=
              if escapePath path = List.dropWhile (fun x => decide (x ≠ '/')) rest2 then []
              else List.dropWhile (fun x => decide (x ≠ '/')) rest2,
            forceQuery := fqv,
            rawQuery := rq,
            fragment := frag }
      else none) = some u) :
    validScheme u.scheme = true ∧
    (∀ us, u.user = some us → validUser us = true) ∧
    validHost u.host = true ∧
    (∀ c ∈ u.path, c.toNat < 256) ∧
    (u.rawPath = [] ∨ (u.rawPath.head? = some '/' ∧
      unescapePath u.rawPath = some u.path ∧ escapePath u.path ≠ u.rawPath)) ∧
    (∀ c ∈ u.rawQuery, isCtlOrHigh c = false ∧ c ≠ '#') := by
  split at hp
  swap
  · cases hp
  next hguard =>
  split at hp
  · cases hp
  next path hpath =>
  have hu := Option.some.inj hp
  subst hu
  obtain ⟨huser, hhost⟩ := Bool.and_eq_true_iff.mp hguard
  dsimp only
  refine ⟨validScheme_toLower schemeRaw hsch, ?_, hhost, ?_, ?_, hrq⟩
  · intro us hus
    cases hsl : splitLast '@' (List.takeWhile (fun x => decide (x ≠ '/')) rest2) with
    | none =>
      rw [hsl] at hus
      cases hus
    | some pair =>
      obtain ⟨a, b⟩ := pair
      rw [hsl] at hus huser
      dsimp only at hus huser
      have : a = us := by simpa using hus
      rw [← this]
      exact huser
  · exact unescapePath_chars_lt (List.dropWhile (fun x => decide (x ≠ '/')) rest2)
      path hpath
      (fun c hc => hr2 c ((List.dropWhile_sublist _).mem hc))
  · by_cases hesc : escapePath path = List.dropWhile (fun x => decide (x ≠ '/')) rest2
    · left
      rw [if_pos hesc]
    · right
      rw [if_neg hesc]
      cases hd : List.dropWhile (fun x => decide (x ≠ '/')) rest2 with
      | nil =>
        exfalso
        rw [hd] at hpath hesc
        have hpnil : path = [] := by
          have h0 : (some [] : Option GoStr) = some path := hpath
          exact (Option.some.inj h0).symm
        rw [hpnil] at hesc
        exact hesc rfl
      | cons a tl =>
        have ha : a = '/' := by
          have := dropWhile_head_false hd
          simpa using this
        subst ha
        rw [← hd]
        exact ⟨by rw [hd]; rfl, hpath, hesc⟩

theorem parse_inv (s : GoStr) (u : GoURL) (hp : parseURL s = some u) :
    validScheme u.scheme = true ∧
    (∀ us, u.user = some us → validUser us = true) ∧
    validHost u.host = true ∧
    (∀ c ∈ u.path, c.toNat < 256) ∧
    (u.rawPath = [] ∨ (u.rawPath.head? = some '/' ∧
      unescapePath u.rawPath = some u.path ∧ escapePath u.path ≠ u.rawPath)) ∧
    (∀ c ∈ u.rawQuery, isCtlOrHigh c = false ∧ c ≠ '#') := by
  unfold parseURL at hp
  by_cases hany : s.any isCtlOrHigh = true
  · rw [if_pos hany] at hp
    cases hp
  · rw [if_neg hany] at hp
    dsimp only at hp
    have hctl : ∀ c ∈ s, isCtlOrHigh c = false := by
      intro c hc
      have := List.any_eq_false.mp (Bool.not_eq_true _ ▸ hany) c hc
      simpa using this
    split at hp
    · cases hp
    next frag hfrag =>
    split at hp
    swap
    · cases hp
    next hsch =>
    split at hp
    swap
    · cases hp
    next afterColon heqc =>
    have hAC : ∀ c ∈ afterColon, c ∈ s ∧ c ≠ '#' := by
      intro c hc
      have h1 : c ∈ List.dropWhile (fun x => decide (x ≠ ':'))
          (List.takeWhile (fun x => decide (x ≠ '#')) s) := by
        rw [heqc]
        exact List.mem_cons_of_mem ':' hc
      have h2 : c ∈ List.takeWhile (fun x => decide (x ≠ '#')) s :=
        (List.dropWhile_sublist _).mem h1
      refine ⟨(List.takeWhile_sublist _).mem h2, ?_⟩
      simpa using List.mem_takeWhile_imp h2
    by_cases hfq : (decide (afterColon.getLast? = some '?')
        && !afterColon.dropLast.contains '?') = true
    · rw [if_pos hfq] at hp
      rw [if_pos hfq] at hp
      split at hp
      swap
      · cases hp
      next rest2 heqr =>
      refine parse_inv_core u _ rest2 [] frag _ hsch ?_ (fun c hc => by cases hc) hp
      intro c hc
      have h1 : c ∈ afterColon.dropLast := by
        rw [heqr]
        exact List.mem_cons_of_mem _ (List.mem_cons_of_mem _ hc)
      have h2 : c ∈ afterColon := (List.dropLast_sublist _).mem h1
      exact hctl c (hAC c h2).1
    · rw [if_neg hfq] at hp
      rw [if_neg hfq] at hp
      split at hp
      swap
      · cases hp
      next rest2 heqr =>
      refine parse_inv_core u _ rest2 _ frag _ hsch ?_ ?_ hp
      · intro c hc
        have h1 : c ∈ List.takeWhile (fun x => decide (x ≠ '?')) afterColon := by
          rw [heqr]
          exact List.mem_cons_of_mem _ (List.mem_cons_of_mem _ hc)
        have h2 : c ∈ afterColon := (List.takeWhile_sublist _).mem h1
        exact hctl c (hAC c h2).1
      · intro c hc
        cases hdq : List.dropWhile (fun x => decide (x ≠ '?')) afterColon with
        | nil =>
          rw [hdq] at hc
          cases hc
        | cons x qq =>
          rw [hdq] at hc
          dsimp only at hc
          have h1 : c ∈ List.dropWhile (fun x => decide (x ≠ '?')) afterColon := by
            rw [hdq]
            exact List.mem_cons_of_mem x hc
          have h2 : c ∈ afterColon := (List.dropWhile_sublist _).mem h1
          exact ⟨hctl c (hAC c h2).1, (hAC c h2).2⟩

/-! ### Parsing a serialized absolute URL -/

theorem parseURL_explicit (sc : GoStr) (uo : Option GoStr) (h pr pp q : GoStr)
    (hsc : validScheme sc = true)
    (hlow : toLower sc = sc)
    (huser : ∀ us, uo = some us → validUser us = true)
    (hh : validHost h = true)
    (hpr1 : pr.head? = some '/')
    (hpp : unescapePath pr = some pp)
    (hprc : ∀ c ∈ pr, isCtlOrHigh c = false ∧ c ≠ '#' ∧ c ≠ '?')
    (hq : ∀ c ∈ q, isCtlOrHigh c = false ∧ c ≠ '#') :
    parseURL (sc ++ ':' :: '/' :: '/' ::
        (uo.elim [] (fun us => us ++ ['@']) ++ h ++ pr ++
          (if q ≠ [] then '?' :: q else []))) =
      some { scheme := sc, user := uo, host := h, path := pp,
             rawPath := if escapePath pp = pr then [] else pr,
             forceQuery := false, rawQuery := q, fragment := [] } := by
  have hup : ∀ c ∈ uo.elim ([] : GoStr) (fun us => us ++ ['@']),
      c = '@' ∨ isAlnum c = true := by
    cases uo with
    | none => intro c hc; cases hc
    | some us =>
      intro c hc
      rcases List.mem_append.mp hc with h2 | h2
      · right
        have hv := huser us rfl
        unfold validUser at hv
        exact List.all_eq_true.mp hv c h2
      · left
        simpa using h2
  have hupf : ∀ c ∈ uo.elim ([] : GoStr) (fun us => us ++ ['@']),
      c ≠ '#' ∧ c ≠ '?' ∧ c ≠ '/' ∧ isCtlOrHigh c = false := by
    intro c hc
    rcases hup c hc with h2 | h2
    · subst h2
      exact ⟨by decide, by decide, by decide, by decide⟩
    · obtain ⟨_, hb, hc2, hd, _, _, hg⟩ := alnum_ok c h2
      exact ⟨hb, hc2, hd, hg⟩
  have hhf : ∀ c ∈ h, c ≠ '#' ∧ c ≠ '?' ∧ c ≠ '/' ∧ isCtlOrHigh c = false := by
    intro c hc
    obtain ⟨h1, h2, h3, _, h5, _⟩ := host_ok c (validHost_chars h hh c hc)
    exact ⟨h1, h2, h3, h5⟩
  have hscf : ∀ c ∈ sc, c ≠ ':' ∧ c ≠ '#' ∧ c ≠ '?' ∧ isCtlOrHigh c = false := by
    intro c hc
    obtain ⟨h1, h2, h3, _, h5⟩ := schemeChar_ok c (validScheme_chars sc hsc c hc)
    exact ⟨h1, h2, h3, h5⟩
  have hqpf : ∀ c ∈ (if q ≠ [] then '?' :: q else []),
      c ≠ '#' ∧ isCtlOrHigh c = false := by
    intro c hc
    by_cases hqn : q ≠ []
    · rw [if_pos hqn] at hc
      rcases List.mem_cons.mp hc with h2 | h2
      · subst h2
        exact ⟨by decide, by decide⟩
      · exact ⟨(hq c h2).2, (hq c h2).1⟩
    · rw [if_neg hqn] at hc
      cases hc
  have hall : ∀ c ∈ sc ++ ':' :: '/' :: '/' ::
      (uo.elim ([] : GoStr) (fun us => us ++ ['@']) ++ h ++ pr ++
        (if q ≠ [] then '?' :: q else [])),
      c ≠ '#' ∧ isCtlOrHigh c = false := by
    intro c hc
    rcases List.mem_append.mp hc with h2 | h2
    · exact ⟨(hscf c h2).2.1, (hscf c h2).2.2.2⟩
    · rcases List.mem_cons.mp h2 with h3 | h3
      · subst h3; exact ⟨by decide, by decide⟩
      · rcases List.mem_cons.mp h3 with h4 | h4
        · subst h4; exact ⟨by decide, by decide⟩
        · rcases List.mem_cons.mp h4 with h5 | h5
          · subst h5; exact ⟨by decide, by decide⟩
          · rcases List.mem_append.mp h5 with h6 | h6
            · rcases List.mem_append.mp h6 with h7 | h7
              · rcases List.mem_append.mp h7 with h8 | h8
                · exact ⟨(hupf c h8).1, (hupf c h8).2.2.2⟩
                · exact ⟨(hhf c h8).1, (hhf c h8).2.2.2⟩
              · exact ⟨(hprc c h7).2.1, (hprc c h7).1⟩
            · exact hqpf c h6
  have hany : (sc ++ ':' :: '/' :: '/' ::
      (uo.elim ([] : GoStr) (fun us => us ++ ['@']) ++ h ++ pr ++
        (if q ≠ [] then '?' :: q else []))).any isCtlOrHigh = false :=
    List.any_eq_false.mpr (fun c hc => by rw [(hall c hc).2]; exact Bool.false_ne_true)
  unfold parseURL
  rw [if_neg (fun hcon => Bool.false_ne_true (hany ▸ hcon))]
  dsimp only
  cases pr with
  | nil => cases hpr1
  | cons p0 pt =>
  have hp0 : p0 = '/' := by simpa using hpr1
  subst hp0
  have hfrag1 : List.dropWhile (fun x => decide (x ≠ '#')) (sc ++ ':' :: '/' :: '/' :: (uo.elim ([] : GoStr) (fun us => us ++ ['@']) ++ h ++ ('/' :: pt) ++ (if q ≠ [] then '?' :: q else []))) = [] :=
    dropWhile_all _ (fun c hc => decide_eq_true (hall c hc).1)
  rw [hfrag1]
  dsimp only
  rw [show unescapePath ([] : GoStr) = some [] from rfl]
  dsimp only
  have htk : List.takeWhile (fun x => decide (x ≠ '#')) (sc ++ ':' :: '/' :: '/' :: (uo.elim ([] : GoStr) (fun us => us ++ ['@']) ++ h ++ ('/' :: pt) ++ (if q ≠ [] then '?' :: q else []))) = sc ++ ':' :: '/' :: '/' :: (uo.elim ([] : GoStr) (fun us => us ++ ['@']) ++ h ++ ('/' :: pt) ++ (if q ≠ [] then '?' :: q else [])) :=
    takeWhile_all _ (fun c hc => decide_eq_true (hall c hc).1)
  rw [htk]
  have hsch1 : List.takeWhile (fun x => decide (x ≠ ':')) (sc ++ ':' :: '/' :: '/' :: (uo.elim ([] : GoStr) (fun us => us ++ ['@']) ++ h ++ ('/' :: pt) ++ (if q ≠ [] then '?' :: q else []))) = sc := by
    rw [takeWhile_append_all sc _ (fun c hc => decide_eq_true (hscf c hc).1)]
    rw [takeWhile_cons_false ':' _ (by decide)]
    rw [List.append_nil]
  rw [hsch1, if_pos hsc]
  have hsch2 : List.dropWhile (fun x => decide (x ≠ ':')) (sc ++ ':' :: '/' :: '/' :: (uo.elim ([] : GoStr) (fun us => us ++ ['@']) ++ h ++ ('/' :: pt) ++ (if q ≠ [] then '?' :: q else [])))
      = ':' :: '/' :: '/' :: (uo.elim ([] : GoStr) (fun us => us ++ ['@']) ++ h ++ ('/' :: pt) ++ (if q ≠ [] then '?' :: q else [])) := by
    rw [dropWhile_append_all sc _ (fun c hc => decide_eq_true (hscf c hc).1)]
    rw [dropWhile_cons_false ':' _ (by decide)]
  rw [hsch2]
  split
  rotate_left
  · rename_i x heqy
    exact ((heqy _ rfl).elim : _)
  next ac heq =>
  obtain rfl := (List.cons.inj heq).2
  by_cases hqn : q = []
  · subst hqn
    rw [show (if ([] : GoStr) ≠ [] then '?' :: ([] : GoStr) else []) = []
      from if_neg (fun hn => hn rfl)]
    rw [List.append_nil]
    have hACnoq : ∀ c ∈ ('/' :: '/' :: (uo.elim ([] : GoStr) (fun us => us ++ ['@']) ++ h ++ ('/' :: pt))), ¬ c = '?' := by
      intro c hc
      rcases List.mem_cons.mp hc with h2 | h2
      · subst h2; decide
      · rcases List.mem_cons.mp h2 with h3 | h3
        · subst h3; decide
        · rcases List.mem_append.mp h3 with h4 | h4
          · rcases List.mem_append.mp h4 with h5 | h5
            · exact (hupf c h5).2.1
            · exact (hhf c h5).2.1
          · exact (hprc c h4).2.2
    have hga : ¬ ('/' :: '/' :: (uo.elim ([] : GoStr) (fun us => us ++ ['@']) ++ h ++ ('/' :: pt))).getLast? = some '?' :=
      fun hg => hACnoq '?' (getLast?_mem hg) rfl
    have hfq : (decide (('/' :: '/' :: (uo.elim ([] : GoStr) (fun us => us ++ ['@']) ++ h ++ ('/' :: pt))).getLast? = some '?')
        && !('/' :: '/' :: (uo.elim ([] : GoStr) (fun us => us ++ ['@']) ++ h ++ ('/' :: pt))).dropLast.contains '?') = false := by
      rw [decide_eq_false hga]
      rfl
    rw [hfq]
    simp only [Bool.false_eq_true, if_false]
    have htq : List.takeWhile (fun x => decide (x ≠ '?')) ('/' :: '/' :: (uo.elim ([] : GoStr) (fun us => us ++ ['@']) ++ h ++ ('/' :: pt))) = ('/' :: '/' :: (uo.elim ([] : GoStr) (fun us => us ++ ['@']) ++ h ++ ('/' :: pt))) :=
      takeWhile_all _ (fun c hc => decide_eq_true (fun hcq => hACnoq c hc hcq))
    have hdq : List.dropWhile (fun x => decide (x ≠ '?')) ('/' :: '/' :: (uo.elim ([] : GoStr) (fun us => us ++ ['@']) ++ h ++ ('/' :: pt))) = [] :=
      dropWhile_all _ (fun c hc => decide_eq_true (fun hcq => hACnoq c hc hcq))
    rw [htq, hdq]
    split
    next rest2 heq2 =>
      obtain rfl := (List.cons.inj (List.cons.inj heq2).2).2
      dsimp only
      have huph : ∀ c ∈ uo.elim ([] : GoStr) (fun us => us ++ ['@']) ++ h, (fun x => decide (x ≠ '/')) c = true := by
        intro c hc
        rcases List.mem_append.mp hc with h2 | h2
        · exact decide_eq_true (hupf c h2).2.2.1
        · exact decide_eq_true (hhf c h2).2.2.1
      have hauth : List.takeWhile (fun x => decide (x ≠ '/'))
          (uo.elim ([] : GoStr) (fun us => us ++ ['@']) ++ h ++ '/' :: pt) = uo.elim ([] : GoStr) (fun us => us ++ ['@']) ++ h := by
        rw [takeWhile_append_all _ _ huph]
        rw [takeWhile_cons_false '/' _ (by decide)]
        rw [List.append_nil]
      have hpath1 : List.dropWhile (fun x => decide (x ≠ '/'))
          (uo.elim ([] : GoStr) (fun us => us ++ ['@']) ++ h ++ '/' :: pt) = '/' :: pt := by
        rw [dropWhile_append_all _ _ huph]
        rw [dropWhile_cons_false '/' _ (by decide)]
      rw [hauth, hpath1]
      have hnoath : '@' ∉ h :=
        fun hmem => (host_ok '@' (validHost_chars h hh '@' hmem)).2.2.2.1 rfl
      cases uo with
      | none =>
        dsimp only [Option.elim]
        rw [List.nil_append]
        rw [splitLast_of_not_mem '@' h hnoath]
        dsimp only
        rw [if_pos (show (true && validHost h) = true by rw [hh]; rfl)]
        rw [hpp]
        dsimp only
        rw [hlow]
      | some us =>
        dsimp only [Option.elim]
        have hnoatus : '@' ∉ us := by
          have hv := huser us rfl
          unfold validUser at hv
          intro hmem
          have h9 := List.all_eq_true.mp hv '@' hmem
          exact absurd h9 (by decide)
        rw [show (us ++ ['@']) ++ h = us ++ '@' :: h by simp]
        rw [splitLast_append_unique '@' us h hnoatus hnoath]
        dsimp only
        rw [if_pos (show (validUser us && validHost h) = true by
          rw [huser us rfl, hh]; rfl)]
        rw [hpp]
        dsimp only
        rw [hlow]

    any_goals (rename_i heqx; exact ((heqx _ rfl).elim : _))
  · rw [show (if q ≠ [] then '?' :: q else []) = '?' :: q from if_pos hqn]
    rw [show '/' :: '/' :: (uo.elim ([] : GoStr) (fun us => us ++ ['@']) ++ h ++ ('/' :: pt) ++ '?' :: q)
        = ('/' :: '/' :: (uo.elim ([] : GoStr) (fun us => us ++ ['@']) ++ h ++ ('/' :: pt))) ++ '?' :: q by
      simp [List.append_assoc]]
    have hAnoq : ∀ c ∈ ('/' :: '/' :: (uo.elim ([] : GoStr) (fun us => us ++ ['@']) ++ h ++ ('/' :: pt))), ¬ c = '?' := by
      intro c hc
      rcases List.mem_cons.mp hc with h2 | h2
      · subst h2; decide
      · rcases List.mem_cons.mp h2 with h3 | h3
        · subst h3; decide
        · rcases List.mem_append.mp h3 with h4 | h4
          · rcases List.mem_append.mp h4 with h5 | h5
            · exact (hupf c h5).2.1
            · exact (hhf c h5).2.1
          · exact (hprc c h4).2.2
    have hfq : (decide ((('/' :: '/' :: (uo.elim ([] : GoStr) (fun us => us ++ ['@']) ++ h ++ ('/' :: pt))) ++ '?' :: q).getLast? = some '?')
        && !(('/' :: '/' :: (uo.elim ([] : GoStr) (fun us => us ++ ['@']) ++ h ++ ('/' :: pt))) ++ '?' :: q).dropLast.contains '?') = false := by
      by_cases hga : (('/' :: '/' :: (uo.elim ([] : GoStr) (fun us => us ++ ['@']) ++ h ++ ('/' :: pt))) ++ '?' :: q).getLast? = some '?'
      · rw [dropLast_append_ne _ ('?' :: q) (List.cons_ne_nil _ _)]
        rw [dropLast_cons_ne '?' q hqn]
        rw [contains_of_mem
          (List.mem_append.mpr (Or.inr (List.mem_cons_self '?' q.dropLast)))]
        simp
      · rw [decide_eq_false hga]
        rfl
    rw [hfq]
    simp only [Bool.false_eq_true, if_false]
    have hAq : ∀ c ∈ ('/' :: '/' :: (uo.elim ([] : GoStr) (fun us => us ++ ['@']) ++ h ++ ('/' :: pt))), (fun x => decide (x ≠ '?')) c = true :=
      fun c hc => decide_eq_true (fun hcq => hAnoq c hc hcq)
    have htq : List.takeWhile (fun x => decide (x ≠ '?'))
        (('/' :: '/' :: (uo.elim ([] : GoStr) (fun us => us ++ ['@']) ++ h ++ ('/' :: pt))) ++ '?' :: q) = ('/' :: '/' :: (uo.elim ([] : GoStr) (fun us => us ++ ['@']) ++ h ++ ('/' :: pt))) := by
      rw [takeWhile_append_all _ _ hAq]
      rw [takeWhile_cons_false '?' _ (by decide)]
      rw [List.append_nil]
    have hdq : List.dropWhile (fun x => decide (x ≠ '?'))
        (('/' :: '/' :: (uo.elim ([] : GoStr) (fun us => us ++ ['@']) ++ h ++ ('/' :: pt))) ++ '?' :: q) = '?' :: q := by
      rw [dropWhile_append_all _ _ hAq]
      rw [dropWhile_cons_false '?' _ (by decide)]
    rw [htq, hdq]
    split
    next rest2 heq2 =>
      obtain rfl := (List.cons.inj (List.cons.inj heq2).2).2
      dsimp only
      have huph : ∀ c ∈ uo.elim ([] : GoStr) (fun us => us ++ ['@']) ++ h, (fun x => decide (x ≠ '/')) c = true := by
        intro c hc
        rcases List.mem_append.mp hc with h2 | h2
        · exact decide_eq_true (hupf c h2).2.2.1
        · exact decide_eq_true (hhf c h2).2.2.1
      have hauth : List.takeWhile (fun x => decide (x ≠ '/'))
          (uo.elim ([] : GoStr) (fun us => us ++ ['@']) ++ h ++ '/' :: pt) = uo.elim ([] : GoStr) (fun us => us ++ ['@']) ++ h := by
        rw [takeWhile_append_all _ _ huph]
        rw [takeWhile_cons_false '/' _ (by decide)]
        rw [List.append_nil]
      have hpath1 : List.dropWhile (fun x => decide (x ≠ '/'))
          (uo.elim ([] : GoStr) (fun us => us ++ ['@']) ++ h ++ '/' :: pt) = '/' :: pt := by
        rw [dropWhile_append_all _ _ huph]
        rw [dropWhile_cons_false '/' _ (by decide)]
      rw [hauth, hpath1]
      have hnoath : '@' ∉ h :=
        fun hmem => (host_ok '@' (validHost_chars h hh '@' hmem)).2.2.2.1 rfl
      cases uo with
      | none =>
        dsimp only [Option.elim]
        rw [List.nil_append]
        rw [splitLast_of_not_mem '@' h hnoath]
        dsimp only
        rw [if_pos (show (true && validHost h) = true by rw [hh]; rfl)]
        rw [hpp]
        dsimp only
        rw [hlow]
      | some us =>
        dsimp only [Option.elim]
        have hnoatus : '@' ∉ us := by
          have hv := huser us rfl
          unfold validUser at hv
          intro hmem
          have h9 := List.all_eq_true.mp hv '@' hmem
          exact absurd h9 (by decide)
        rw [show (us ++ ['@']) ++ h = us ++ '@' :: h by simp]
        rw [splitLast_append_unique '@' us h hnoatus hnoath]
        dsimp only
        rw [if_pos (show (validUser us && validHost h) = true by
          rw [huser us rfl, hh]; rfl)]
        rw [hpp]
        dsimp only
        rw [hlow]

    any_goals (rename_i heqx; exact ((heqx _ rfl).elim : _))

/-! ### Serializing a normalized URL -/

theorem urlString_explicit (u : GoURL) (hs : u.scheme ≠ []) (hh : u.host ≠ [])
    (hfq : u.forceQuery = false) (hfr : u.fragment = []) :
    urlString u = u.scheme ++ ':' :: '/' :: '/' ::
      (u.user.elim [] (fun us => escapeUser us ++ ['@']) ++ escapeHost u.host ++
        (if escapedPath u.path u.rawPath ≠ [] ∧
            (escapedPath u.path u.rawPath).head? ≠ some '/' then ['/'] else []) ++
        escapedPath u.path u.rawPath ++
        (if u.rawQuery ≠ [] then '?' :: u.rawQuery else [])) := by
  unfold urlString
  dsimp only
  rw [if_pos hs, if_pos (Or.inl hs), if_pos (Or.inl hh)]
  rw [hfq, hfr]
  rw [show (if ([] : GoStr) ≠ [] then '#' :: escapeFragment [] else []) = []
    from if_neg (fun hn => hn rfl)]
  by_cases hsep : escapedPath u.path u.rawPath ≠ [] ∧
      (escapedPath u.path u.rawPath).head? ≠ some '/'
  · rw [if_pos ⟨hsep.1, hsep.2, hh⟩]
    rw [if_pos hsep]
    rw [if_neg ?hg3]
    case hg3 =>
      rintro ⟨h1, _⟩
      simp at h1
    by_cases hq0 : u.rawQuery ≠ []
    · rw [if_pos (Or.inr hq0), if_pos hq0]
      cases u.user with
      | none => simp [Option.elim]
      | some us => simp [Option.elim]
    · rw [if_neg (fun hcon => hcon.elim (fun hb => Bool.false_ne_true hb) hq0),
        if_neg hq0]
      cases u.user with
      | none => simp [Option.elim]
      | some us => simp [Option.elim]
  · rw [if_neg (fun hcon => hsep ⟨hcon.1, hcon.2.1⟩)]
    rw [if_neg hsep]
    rw [if_neg ?hg4]
    case hg4 =>
      rintro ⟨h1, _⟩
      simp at h1
    by_cases hq0 : u.rawQuery ≠ []
    · rw [if_pos (Or.inr hq0), if_pos hq0]
      cases u.user with
      | none => simp [Option.elim]
      | some us => simp [Option.elim]
    · rw [if_neg (fun hcon => hcon.elim (fun hb => Bool.false_ne_true hb) hq0),
        if_neg hq0]
      cases u.user with
      | none => simp [Option.elim]
      | some us => simp [Option.elim]

theorem urlString_rawPath_irrel (u : GoURL) (r2 : GoStr)
    (hE : escapedPath u.path r2 = escapedPath u.path u.rawPath) :
    urlString { u with rawPath := r2 } = urlString u := by
  unfold urlString
  dsimp only
  rw [hE]

theorem pathname_chars (p : GoStr) :
    ∀ c ∈ pathname p, c ∈ p ∨ c = '.' ∨ c = '/' := by
  intro c hc
  rcases pathname_output p with hp | hp | hp | ⟨cs, _, _, hseg, hp⟩
  · rw [hp] at hc
    right; right
    simpa using hc
  · rw [hp] at hc
    cases hc
  · rw [hp] at hc
    right; left
    simpa using hc
  · rw [hp] at hc
    rcases mem_intercalateCh '/' cs c hc with h2 | ⟨s, hs, hcs⟩
    · right; right; exact h2
    · rcases (hseg s hs).2.2.2 c hcs with h3 | h3
      · left; exact h3
      · right; left; exact h3

theorem validScheme_ne_nil (s : GoStr) (h : validScheme s = true) : s ≠ [] := by
  cases s with
  | nil => cases h
  | cons c t => exact List.cons_ne_nil c t

theorem toLower_ne_nil (s : GoStr) (h : s ≠ []) : toLower s ≠ [] := by
  cases s with
  | nil => exact absurd rfl h
  | cons c t => exact List.cons_ne_nil _ _

theorem escapePath_cons_slash (y : GoStr) :
    escapePath ('/' :: y) = '/' :: escapePath y := by
  unfold escapePath
  rw [List.flatMap_cons]
  rw [show escapeChar shouldEscapePath '/' = ['/'] from by decide]
  rfl

/-! ### Normalization is a retraction on serialized normalized URLs -/

theorem rawURL_fixed_of_parse (s : GoStr) (u : GoURL)
    (hp : parseURL s = some u) (hy : pathname u.path ≠ []) :
    rawURL (urlString (normalizeURL u)) = some (urlString (normalizeURL u)) := by
  obtain ⟨hinv1, hinv2, hinv3, hinv4, hinv5, hinv6⟩ := parse_inv s u hp
  have hsc1 : validScheme (toLower u.scheme) = true := validScheme_toLower _ hinv1
  have hlow : toLower (toLower u.scheme) = toLower u.scheme := toLower_idem _
  have hhost : validHost (hostnameNorm (toLower u.scheme) u.host) = true :=
    hostnameNorm_validHost _ _ hinv3
  have hfix := pathname_fixed u.path hy
  have hylt : ∀ c ∈ pathname u.path, c.toNat < 256 := by
    intro c hc
    rcases pathname_chars u.path c hc with h2 | h2 | h2
    · exact hinv4 c h2
    · subst h2; decide
    · subst h2; decide
  have hEP : escapedPath (pathname u.path) u.rawPath
      = (if pathname u.path = ['*'] then ['*']
         else escapePath (pathname u.path)) := by
    unfold escapedPath
    rw [if_neg ?hg]
    case hg =>
      rintro ⟨hne, hval, hdec⟩
      rcases hinv5 with h0 | ⟨hhead, hdec0, hesc0⟩
      · exact hne h0
      · have hupath : u.path = pathname u.path := Option.some.inj (hdec0.symm.trans hdec)
        have hyhead : (pathname u.path).head? = some '/' :=
          unescapePath_head_slash hhead hdec
        have hyslash : pathname u.path = ['/'] := by
          rcases hfix.2.2 with h3 | h3
          · exact h3
          · exact absurd hyhead h3
        have hrp : u.rawPath = ['/'] := by
          apply unescapePath_eq_slash hhead
          rw [hdec, hyslash]
        apply hesc0
        rw [hupath, hyslash, hrp]
        decide
  have heu : u.user.elim ([] : GoStr) (fun us => escapeUser us ++ ['@'])
      = u.user.elim ([] : GoStr) (fun us => us ++ ['@']) := by
    cases huo : u.user with
    | none => rfl
    | some us =>
      dsimp only [Option.elim]
      rw [escapeUser_alnum us (hinv2 us huo)]
  have hq' : ∀ c ∈ queryNorm u.rawQuery, isCtlOrHigh c = false ∧ c ≠ '#' := by
    intro c hc
    rcases queryNorm_chars u.rawQuery c hc with h2 | h2
    · subst h2; exact ⟨by decide, by decide⟩
    · exact ⟨(hinv6 c h2).1, (hinv6 c h2).2⟩
  have hsne : (normalizeURL u).scheme ≠ [] :=
    toLower_ne_nil u.scheme (validScheme_ne_nil u.scheme hinv1)
  have hhne : (normalizeURL u).host ≠ [] := hostnameNorm_ne_nil _ u.host hinv3
  have h0 := urlString_explicit (normalizeURL u) hsne hhne rfl rfl
  rw [show (normalizeURL u).scheme = toLower u.scheme from rfl,
    show (normalizeURL u).user = u.user from rfl,
    show (normalizeURL u).host = hostnameNorm (toLower u.scheme) u.host from rfl,
    show (normalizeURL u).path = pathname u.path from rfl,
    show (normalizeURL u).rawPath = u.rawPath from rfl,
    show (normalizeURL u).rawQuery = queryNorm u.rawQuery from rfl] at h0
  rw [escapeHost_id _ hhost, heu, hEP] at h0
  rcases hfix.2.2 with hY | hYhead
  · -- normalized path is the root path
    rw [hY] at h0
    rw [show (if (['/'] : GoStr) = ['*'] then (['*'] : GoStr) else escapePath ['/'])
        = ['/'] from by decide] at h0
    rw [if_neg (by decide), List.append_nil] at h0
    have hparse := parseURL_explicit (toLower u.scheme) u.user (hostnameNorm (toLower u.scheme) u.host) ['/'] ['/'] (queryNorm u.rawQuery)
      hsc1 hlow hinv2 hhost (by decide) (by decide) (by decide) hq'
    unfold rawURL
    rw [h0, hparse]
    rw [show (if escapePath ['/'] = (['/'] : GoStr) then ([] : GoStr) else ['/'])
        = [] from by decide]
    simp only [Option.map_some']
    congr 1
    have hnormeq : normalizeURL
        { scheme := toLower u.scheme, user := u.user, host := hostnameNorm (toLower u.scheme) u.host, path := ['/'],
          rawPath := [], forceQuery := false, rawQuery := queryNorm u.rawQuery, fragment := [] }
        = { normalizeURL u with rawPath := ([] : GoStr) } := by
      unfold normalizeURL
      dsimp only
      rw [GoURL.mk.injEq]
      refine ⟨toLower_idem _, rfl, ?_, ?_, rfl, rfl, queryNorm_idem _, rfl⟩
      · rw [toLower_idem]
        exact hostnameNorm_idem _ _
      · rw [hY]
        decide
    rw [hnormeq]
    rw [urlString_rawPath_irrel (normalizeURL u) []]
    · rw [h0]
    · show escapedPath ((normalizeURL u).path) [] = escapedPath ((normalizeURL u).path) ((normalizeURL u).rawPath)
      rw [show (normalizeURL u).path = pathname u.path from rfl,
        show (normalizeURL u).rawPath = u.rawPath from rfl]
      rw [hEP, hY]
      decide
  · by_cases hstar : pathname u.path = ['*']
    · -- normalized path is a lone asterisk
      rw [hstar] at h0
      rw [if_pos rfl] at h0
      rw [if_pos (by decide)] at h0
      rw [List.append_assoc _ (['/'] : GoStr) (['*'] : GoStr)] at h0
      rw [show ((['/'] : GoStr) ++ ['*']) = ['/', '*'] from rfl] at h0
      have hparse := parseURL_explicit (toLower u.scheme) u.user (hostnameNorm (toLower u.scheme) u.host) ['/', '*'] ['/', '*'] (queryNorm u.rawQuery)
        hsc1 hlow hinv2 hhost (by decide) (by decide) (by decide) hq'
      unfold rawURL
      rw [h0, hparse]
      rw [show (if escapePath ['/', '*'] = (['/', '*'] : GoStr) then ([] : GoStr)
          else ['/', '*']) = ['/', '*'] from by decide]
      simp only [Option.map_some']
      congr 1
      have hnormeq : normalizeURL
          { scheme := toLower u.scheme, user := u.user, host := hostnameNorm (toLower u.scheme) u.host, path := ['/', '*'],
            rawPath := ['/', '*'], forceQuery := false, rawQuery := queryNorm u.rawQuery,
            fragment := [] }
          = { normalizeURL u with rawPath := (['/', '*'] : GoStr) } := by
        unfold normalizeURL
        dsimp only
        rw [GoURL.mk.injEq]
        refine ⟨toLower_idem _, rfl, ?_, ?_, rfl, rfl, queryNorm_idem _, rfl⟩
        · rw [toLower_idem]
          exact hostnameNorm_idem _ _
        · rw [hstar]
          decide
      rw [hnormeq]
      rw [urlString_rawPath_irrel (normalizeURL u) ['/', '*']]
      · rw [h0]
      · show escapedPath ((normalizeURL u).path) ['/', '*']
            = escapedPath ((normalizeURL u).path) ((normalizeURL u).rawPath)
        rw [show (normalizeURL u).path = pathname u.path from rfl,
          show (normalizeURL u).rawPath = u.rawPath from rfl]
        rw [hEP, if_pos hstar, hstar]
        decide
    · -- general non-rooted normalized path
      rw [if_neg hstar] at h0
      rw [if_pos ⟨fun hnil => hy (escapePath_eq_nil _ hnil),
        escapePath_head_not_slash _ hYhead⟩] at h0
      rw [List.append_assoc _ (['/'] : GoStr) (escapePath (pathname u.path))] at h0
      rw [List.singleton_append] at h0
      have hpp : unescapePath ('/' :: escapePath (pathname u.path)) = some ('/' :: pathname u.path) := by
        rw [unescapePath_cons_not_pct '/' _ (by decide)]
        rw [unescapePath_escapePath _ hylt]
        rfl
      have hprc : ∀ c ∈ '/' :: escapePath (pathname u.path),
          isCtlOrHigh c = false ∧ c ≠ '#' ∧ c ≠ '?' := by
        intro c hc
        rcases List.mem_cons.mp hc with h2 | h2
        · subst h2; exact ⟨by decide, by decide, by decide⟩
        · obtain ⟨ha, hb, hc2⟩ := escapePathChar_ok _ hylt c h2
          exact ⟨hc2, ha, hb⟩
      have hparse := parseURL_explicit (toLower u.scheme) u.user (hostnameNorm (toLower u.scheme) u.host)
        ('/' :: escapePath (pathname u.path)) ('/' :: pathname u.path) (queryNorm u.rawQuery)
        hsc1 hlow hinv2 hhost rfl hpp hprc hq'
      unfold rawURL
      rw [h0, hparse]
      rw [show (if escapePath ('/' :: pathname u.path) = '/' :: escapePath (pathname u.path)
          then ([] : GoStr) else '/' :: escapePath (pathname u.path)) = []
          from if_pos (escapePath_cons_slash _)]
      simp only [Option.map_some']
      congr 1
      have hnormeq : normalizeURL
          { scheme := toLower u.scheme, user := u.user, host := hostnameNorm (toLower u.scheme) u.host, path := '/' :: pathname u.path,
            rawPath := [], forceQuery := false, rawQuery := queryNorm u.rawQuery,
            fragment := [] }
          = { normalizeURL u with rawPath := ([] : GoStr) } := by
        unfold normalizeURL
        dsimp only
        rw [GoURL.mk.injEq]
        refine ⟨toLower_idem _, rfl, ?_, ?_, rfl, rfl, queryNorm_idem _, rfl⟩
        · rw [toLower_idem]
          exact hostnameNorm_idem _ _
        · exact hfix.2.1 hYhead
      rw [hnormeq]
      rw [urlString_rawPath_irrel (normalizeURL u) []]
      · rw [h0]
      · show escapedPath ((normalizeURL u).path) []
            = escapedPath ((normalizeURL u).path) ((normalizeURL u).rawPath)
        rw [show (normalizeURL u).path = pathname u.path from rfl,
          show (normalizeURL u).rawPath = u.rawPath from rfl]
        rw [hEP, if_neg hstar]
        unfold escapedPath
        rw [if_neg (fun hcon => hcon.1 rfl), if_neg hstar]

/-- **C2 (counterexample).** Normalization is not idempotent on every
parseable input: `http://example.com//` parses, its normalization drops the
all-slash path entirely (`http://example.com`), and normalizing the result
appends a root path (`http://example.com/`), so normalize ∘ normalize ≠
normalize at this input. -/
theorem c2_normalize_idempotent_counterexample :
    RawURL "http://example.com//" = some "http://example.com" ∧
    (RawURL "http://example.com//").bind RawURL ≠ RawURL "http://example.com//" := by
  decide

/-- **C2 (amended).** Normalization succeeds exactly on parseable inputs, and
it is idempotent on every parseable input whose path does not normalize to the
empty string: if `parseURL s = some u`, `rawURL s = some t` and
`pathname u.path ≠ []`, then renormalizing the normalized string `t` returns
`t` itself. -/
theorem c2_normalize_idempotent_amended :
    (∀ s : GoStr, (rawURL s).isSome = (parseURL s).isSome) ∧
    (∀ (s : GoStr) (u : GoURL) (t : GoStr), parseURL s = some u →
      rawURL s = some t → pathname u.path ≠ [] → rawURL t = some t) := by
  constructor
  · intro s
    unfold rawURL
    cases parseURL s <;> rfl
  · intro s u t hp hr hy
    have ht : t = urlString (normalizeURL u) := by
      unfold rawURL at hr
      rw [hp] at hr
      simp only [Option.map_some'] at hr
      exact (Option.some.inj hr).symm
    rw [ht]
    exact rawURL_fixed_of_parse s u hp hy

/-- Witness for the amended C2 theorem: `http://example.com/a` parses, is a
fixed point of normalization, and its normalized path `a` is nonempty. -/
theorem c2_normalize_idempotent_amended_witness :
    rawURL ("http://example.com/a".data) = some ("http://example.com/a".data) :=
  c2_normalize_idempotent_amended.2 ("http://example.com/a".data)
    ⟨"http".data, none, "example.com".data, "/a".data, [], false, [], []⟩
    ("http://example.com/a".data) (by decide) (by decide) (by decide)

end Ant
